import Mathlib

/-!
Verification of the `line_drawing` Rust crate against its specification.

The crate's iterators are shallowly embedded: every Rust iterator becomes a
Lean structure holding the same fields, together with a `next` function
`State → Option (Item × State)` that mirrors the body of the Rust
`Iterator::next` implementation.  Machine integers (`isize` and friends)
are modelled as `Int`; the handful of `f32` fields are modelled as exact
rationals (`ℚ`), with the IEEE special cases that the source relies on
(division by zero producing infinities or NaN, float-to-int casts of NaN
saturating to 0, `f32::round` rounding half away from zero) made explicit
at each point of use.
-/

namespace LineDrawing

/-- Fuel-bounded list of items produced by repeatedly calling `next` from a
state: the generic way we collect a Rust iterator into a list. -/
def iterRun {σ α : Type} (next : σ → Option (α × σ)) : Nat → σ → List α
  | 0, _ => []
  | n + 1, s =>
    match next s with
    | none => []
    | some (a, s') => a :: iterRun next n s'

/-- State reached after `n` successful calls to `next`; `none` as soon as
some call among the first `n` returned `none`. -/
def iterStep {σ α : Type} (next : σ → Option (α × σ)) : Nat → σ → Option σ
  | 0, s => some s
  | n + 1, s =>
    match next s with
    | none => none
    | some (_, s') => iterStep next n s'

/-- An iterator state is exhausted after finitely many calls: some number of
calls to `next` reaches a `none` answer. -/
def Exhausts {σ α : Type} (next : σ → Option (α × σ)) (s : σ) : Prop :=
  ∃ n, iterStep next n s = none

theorem iterStep_succ_of_next {σ α : Type} (next : σ → Option (α × σ))
    (n : Nat) (s s' : σ) (a : α) (h : next s = some (a, s')) :
    iterStep next (n + 1) s = iterStep next n s' := by
  simp [iterStep, h]

theorem exhausts_of_next_none {σ α : Type} (next : σ → Option (α × σ))
    (s : σ) (h : next s = none) : Exhausts next s :=
  ⟨1, by simp [iterStep, h]⟩

theorem exhausts_of_next_some {σ α : Type} (next : σ → Option (α × σ))
    (s s' : σ) (a : α) (h : next s = some (a, s')) (h' : Exhausts next s') :
    Exhausts next s := by
  obtain ⟨n, hn⟩ := h'
  exact ⟨n + 1, by simpa [iterStep, h] using hn⟩

/-- Rust `f32::round` on an exact rational value: round half away from zero. -/
def rustRound (q : ℚ) : ℤ :=
  if 0 ≤ q then ⌊q + 1 / 2⌋ else -⌊-q + 1 / 2⌋

/-- Rust `as isize` cast of an exact rational value: truncate toward zero. -/
def rustTrunc (q : ℚ) : ℤ :=
  if 0 ≤ q then ⌊q⌋ else ⌈q⌉

example : rustRound (1 / 2) = 1 := by norm_num [rustRound]
example : rustRound (-1 / 2) = -1 := by norm_num [rustRound]
example : rustRound (7 / 10) = 1 := by norm_num [rustRound]
example : rustTrunc (-7 / 10) = 0 := by norm_num [rustTrunc]

/-! ### Octant (src/octant.rs)

The octant tag is the `value : u8` field of the Rust `Octant` struct,
modelled as a `Nat`.  The `_ => unreachable!()` arms of `to` and `from`
are modelled by a junk value `(0, 0)`; the theorem for claim C10 shows the
tag computed by `Octant::new` is at most 7, so those arms are never taken
for tags produced by `new`. -/

namespace Octant

/-- Octant tag computed by `Octant::new` from a start and an end point. -/
def new (start finish : ℤ × ℤ) : ℕ :=
  let dx := finish.1 - start.1
  let dy := finish.2 - start.2
  let v0 : ℕ := 0
  let p1 := if dy < 0 then (-dx, -dy, v0 + 4) else (dx, dy, v0)
  let p2 :=
    if p1.1 < 0 then (p1.2.1, -p1.1, p1.2.2 + 2) else (p1.1, p1.2.1, p1.2.2)
  if p2.1 < p2.2.1 then p2.2.2 + 1 else p2.2.2

/-- Rust `Octant::to`: map a point into its normalized-octant position (the name `to` is a reserved token in Lean, hence the prime). -/
def to' (value : ℕ) (point : ℤ × ℤ) : ℤ × ℤ :=
  match value with
  | 0 => (point.1, point.2)
  | 1 => (point.2, point.1)
  | 2 => (point.2, -point.1)
  | 3 => (-point.1, point.2)
  | 4 => (-point.1, -point.2)
  | 5 => (-point.2, -point.1)
  | 6 => (-point.2, point.1)
  | 7 => (point.1, -point.2)
  | _ => (0, 0)

/-- Rust `Octant::from`: map a point back from its normalized-octant
position (the name `from` is reserved in Lean, hence the prime). -/
def from' (value : ℕ) (point : ℤ × ℤ) : ℤ × ℤ :=
  match value with
  | 0 => (point.1, point.2)
  | 1 => (point.2, point.1)
  | 2 => (-point.2, point.1)
  | 3 => (-point.1, point.2)
  | 4 => (-point.1, -point.2)
  | 5 => (-point.2, -point.1)
  | 6 => (point.2, -point.1)
  | 7 => (point.1, -point.2)
  | _ => (0, 0)

theorem new_le_seven (start finish : ℤ × ℤ) : new start finish ≤ 7 := by
  simp only [new]
  split_ifs <;> simp

theorem from'_to' (v : ℕ) (hv : v ≤ 7) (p : ℤ × ℤ) :
    from' v (to' v p) = p := by
  interval_cases v <;> simp [to', from']

theorem to'_from' (v : ℕ) (hv : v ≤ 7) (p : ℤ × ℤ) :
    to' v (from' v p) = p := by
  interval_cases v <;> simp [to', from']

theorem to'_new_normalized (s e : ℤ × ℤ) :
    0 ≤ (to' (new s e) e).2 - (to' (new s e) s).2 ∧
      (to' (new s e) e).2 - (to' (new s e) s).2 ≤ (to' (new s e) e).1 - (to' (new s e) s).1 := by
  simp only [new]
  split_ifs with h1 h2 h3 <;> simp_all [to'] <;> omega

end Octant

/-! ### Grid walking (src/grid_walking.rs)

The Rust code stores the step counters `ix`, `iy` and the bounds `nx`, `ny`
in `f32` fields; they always hold the non-negative integers
`0, 1, ..., |delta|`, so they are modelled as `Nat`.  The only floating
operation on them is the comparison `(0.5 + ix) / nx < (0.5 + iy) / ny`,
modelled exactly: for positive denominators by the equivalent integer
cross-multiplication `(1 + 2*ix) * ny < (1 + 2*iy) * nx`, and for zero
denominators by the IEEE outcome the source relies on (a positive float
divided by `0.0` is `+inf`; `inf < inf` and `inf < finite` are false,
`finite < inf` is true). -/

/-- Rust comparison `(0.5 + ix) / nx < (0.5 + iy) / ny` used by `WalkGrid`. -/
def ratioLt (ix nx iy ny : ℕ) : Bool :=
  if nx = 0 then false
  else if ny = 0 then true
  else decide ((1 + 2 * ix) * ny < (1 + 2 * iy) * nx)

/-- State of the Rust `WalkGrid` iterator. -/
structure WalkGrid where
  point : ℤ × ℤ
  ix : ℕ
  iy : ℕ
  sign_x : ℤ
  sign_y : ℤ
  ny : ℕ
  nx : ℕ

/-- Rust `WalkGrid::new`.  Note the source's `sign_y: dx.signum()`: the sign
of the y-steps is taken from the x-delta. -/
def WalkGrid.new (start finish : ℤ × ℤ) : WalkGrid :=
  let dx := finish.1 - start.1
  let dy := finish.2 - start.2
  { point := start
    ix := 0
    iy := 0
    sign_x := dx.sign
    sign_y := dx.sign
    nx := dx.natAbs
    ny := dy.natAbs }

/-- Rust `<WalkGrid as Iterator>::next`. -/
def WalkGrid.next (s : WalkGrid) : Option ((ℤ × ℤ) × WalkGrid) :=
  if s.ix ≤ s.nx ∧ s.iy ≤ s.ny then
    let point := s.point
    if ratioLt s.ix s.nx s.iy s.ny then
      some (point, { s with point := (s.point.1 + s.sign_x, s.point.2), ix := s.ix + 1 })
    else
      some (point, { s with point := (s.point.1, s.point.2 + s.sign_y), iy := s.iy + 1 })
  else
    none

/-- Three-way outcome of the Rust `Supercover` comparison
`((0.5 + ix) / nx) - ((0.5 + iy) / ny)` against `0.0`: `eq` for the
`== 0.0` branch, `lt` for the `< 0.0` branch, `gt` for the `else` branch.
With `nx = 0` the left ratio is `+inf`, so the difference is `+inf` (or
NaN when both are `+inf`); either way the `else` branch is taken.  With
only `ny = 0` the difference is `-inf` and the `< 0.0` branch is taken. -/
def ratioCmp (ix nx iy ny : ℕ) : Ordering :=
  if nx = 0 then Ordering.gt
  else if ny = 0 then Ordering.lt
  else compare ((1 + 2 * ix) * ny) ((1 + 2 * iy) * nx)

/-- State of the Rust `Supercover` iterator. -/
structure Supercover where
  point : ℤ × ℤ
  ix : ℕ
  iy : ℕ
  sign_x : ℤ
  sign_y : ℤ
  ny : ℕ
  nx : ℕ

/-- Rust `Supercover::new`. -/
def Supercover.new (start finish : ℤ × ℤ) : Supercover :=
  let dx := finish.1 - start.1
  let dy := finish.2 - start.2
  { point := start
    ix := 0
    iy := 0
    sign_x := dx.sign
    sign_y := dy.sign
    nx := dx.natAbs
    ny := dy.natAbs }

/-- Rust `<Supercover as Iterator>::next`. -/
def Supercover.next (s : Supercover) : Option ((ℤ × ℤ) × Supercover) :=
  if s.ix ≤ s.nx ∧ s.iy ≤ s.ny then
    let point := s.point
    match ratioCmp s.ix s.nx s.iy s.ny with
    | Ordering.eq =>
        some (point, { s with point := (s.point.1 + s.sign_x, s.point.2 + s.sign_y),
                              ix := s.ix + 1, iy := s.iy + 1 })
    | Ordering.lt =>
        some (point, { s with point := (s.point.1 + s.sign_x, s.point.2), ix := s.ix + 1 })
    | Ordering.gt =>
        some (point, { s with point := (s.point.1, s.point.2 + s.sign_y), iy := s.iy + 1 })
  else
    none

/-- Collected output of `WalkGrid` with enough fuel for the whole walk. -/
def WalkGrid.list (start finish : ℤ × ℤ) : List (ℤ × ℤ) :=
  iterRun WalkGrid.next
    ((finish.1 - start.1).natAbs + (finish.2 - start.2).natAbs + 2)
    (WalkGrid.new start finish)

/-- Collected output of `Supercover` with enough fuel for the whole walk. -/
def Supercover.list (start finish : ℤ × ℤ) : List (ℤ × ℤ) :=
  iterRun Supercover.next
    ((finish.1 - start.1).natAbs + (finish.2 - start.2).natAbs + 2)
    (Supercover.new start finish)

example : WalkGrid.list (0, 0) (2, 2) = [(0, 0), (0, 1), (1, 1), (1, 2), (2, 2)] := by
  decide

example : WalkGrid.list (0, 0) (3, 2) = [(0, 0), (1, 0), (1, 1), (2, 1), (2, 2), (3, 2)] := by
  decide

example : Supercover.list (0, 0) (5, 5) =
    [(0, 0), (1, 1), (2, 2), (3, 3), (4, 4), (5, 5)] := by
  decide

example : Supercover.list (0, 0) (3, 1) = [(0, 0), (1, 0), (2, 1), (3, 1)] := by
  decide

/-- C1: the claim says every `WalkGrid` step moves one coordinate by that
axis's own step sign and that the walk ends at `end`.  The code violates
this: `WalkGrid::new` initializes `sign_y` with `dx.signum()` instead of
`dy.signum()` (its sibling `Supercover::new` uses `dy.signum()`), so for
`start = (0,0)`, `end = (1,-1)` the walk moves y upward (+1, the sign of
dx) although the y-delta is -1, and it finishes at `(1,1)`, never emitting
the end point `(1,-1)`. -/
theorem walkGrid_sign_y_bug :
    WalkGrid.list (0, 0) (1, -1) = [(0, 0), (0, 1), (1, 1)] ∧
      ((1 : ℤ), (-1 : ℤ)) ∉ WalkGrid.list (0, 0) (1, -1) := by
  decide

/-- C9: for every octant tag produced by `Octant::new` and every point `p`,
`Octant::from` is the exact inverse of `Octant::to`: `from (to p) = p` and
`to (from p) = p`. -/
theorem octant_roundtrip (s e p : ℤ × ℤ) :
    Octant.from' (Octant.new s e) (Octant.to' (Octant.new s e) p) = p ∧
      Octant.to' (Octant.new s e) (Octant.from' (Octant.new s e) p) = p :=
  ⟨Octant.from'_to' _ (Octant.new_le_seven s e) p,
    Octant.to'_from' _ (Octant.new_le_seven s e) p⟩

/-! ### Bresenham (src/bresenham.rs) -/

/-- State of the Rust `Bresenham` iterator. -/
structure Bresenham where
  point : ℤ × ℤ
  end_x : ℤ
  delta_x : ℤ
  delta_y : ℤ
  error : ℤ
  octant : ℕ

/-- Rust `Bresenham::new`. -/
def Bresenham.new (start finish : ℤ × ℤ) : Bresenham :=
  let octant := Octant.new start finish
  let start' := Octant.to' octant start
  let finish' := Octant.to' octant finish
  let delta_x := finish'.1 - start'.1
  let delta_y := finish'.2 - start'.2
  { point := start'
    end_x := finish'.1
    delta_x := delta_x
    delta_y := delta_y
    error := delta_y - delta_x
    octant := octant }

/-- State update of one `Bresenham` step: when the error is non-negative,
advance y and subtract `delta_x` from the error; always advance x and add
`delta_y` to the error. -/
def Bresenham.step (s : Bresenham) : Bresenham :=
  let y' := if 0 ≤ s.error then s.point.2 + 1 else s.point.2
  let e' := if 0 ≤ s.error then s.error - s.delta_x else s.error
  { s with point := (s.point.1 + 1, y'), error := e' + s.delta_y }

/-- Rust `<Bresenham as Iterator>::next`: emit the current point mapped back
through the octant, then step. -/
def Bresenham.next (s : Bresenham) : Option ((ℤ × ℤ) × Bresenham) :=
  if s.point.1 ≤ s.end_x then some (Octant.from' s.octant s.point, s.step) else none

/-- Collected output of `Bresenham` with enough fuel for the whole walk. -/
def Bresenham.list (start finish : ℤ × ℤ) : List (ℤ × ℤ) :=
  iterRun Bresenham.next
    ((Octant.to' (Octant.new start finish) finish).1 -
        (Octant.to' (Octant.new start finish) start).1).toNat.succ.succ
    (Bresenham.new start finish)

example : Bresenham.list (0, 0) (5, 5) =
    [(0, 0), (1, 1), (2, 2), (3, 3), (4, 4), (5, 5)] := by decide

example : Bresenham.list (0, 0) (5, 6) =
    [(0, 0), (0, 1), (1, 2), (2, 3), (3, 4), (4, 5), (5, 6)] := by decide

/-- Integer range list `[a, a+1, ..., a+n-1]`, used to describe the strictly
increasing x-coordinates of a normalized Bresenham walk. -/
def intRange (a : ℤ) (n : ℕ) : List ℤ :=
  (List.range n).map fun (k : ℕ) => a + (k : ℤ)

theorem intRange_succ (a : ℤ) (n : ℕ) : intRange a (n + 1) = a :: intRange (a + 1) n := by
  unfold intRange
  rw [List.range_succ_eq_map, List.map_cons, List.map_map]
  norm_num
  intro k hk
  ring

theorem intRange_nodup (a : ℤ) (n : ℕ) : (intRange a n).Nodup := by
  refine List.Nodup.map ?_ (List.nodup_range n)
  intro x y h
  exact_mod_cast add_left_cancel h

/-- Invariant of a normalized Bresenham traversal state: `x0, y0` is the
normalized start point; the error field tracks the line equation and stays
inside its fundamental band. -/
structure BrInv (x0 y0 : ℤ) (s : Bresenham) : Prop where
  dy_nonneg : 0 ≤ s.delta_y
  dy_le_dx : s.delta_y ≤ s.delta_x
  ex_eq : s.end_x = x0 + s.delta_x
  x_lb : x0 ≤ s.point.1
  y_lb : y0 ≤ s.point.2
  y_ub : s.point.2 ≤ y0 + s.delta_y
  err_eq : s.error =
    (s.point.1 - x0 + 1) * s.delta_y - (s.point.2 - y0) * s.delta_x - s.delta_x
  err_bd : (0 < s.delta_y ∧ -s.delta_x < s.error ∧ s.error < s.delta_y) ∨
    (s.delta_y = 0 ∧ s.error = -s.delta_x)

theorem BrInv.step (x0 y0 : ℤ) (s : Bresenham) (h : BrInv x0 y0 s)
    (hlt : s.point.1 < s.end_x) : BrInv x0 y0 s.step := by
  obtain ⟨h1, h2, h3, h4, h5, h6, h7, h8⟩ := h
  have hdx : 0 < s.delta_x := by omega
  by_cases h0 : 0 ≤ s.error
  · have hdy : 0 < s.delta_y := by
      rcases h8 with h8 | h8
      · exact h8.1
      · omega
    have hyb : s.point.2 - y0 ≤ s.delta_y - 1 := by
      have ha : (s.point.1 - x0 + 1) * s.delta_y ≤ s.delta_x * s.delta_y :=
        mul_le_mul_of_nonneg_right (by omega) h1
      have hb : (s.point.2 - y0) * s.delta_x ≤ (s.delta_y - 1) * s.delta_x := by nlinarith
      exact le_of_mul_le_mul_right hb hdx
    refine ⟨h1, h2, h3, by simpa [Bresenham.step] using by omega, ?_, ?_, ?_, ?_⟩
    · simp only [Bresenham.step, if_pos h0]
      omega
    · simp only [Bresenham.step, if_pos h0]
      omega
    · simp only [Bresenham.step, if_pos h0]
      nlinarith [h7]
    · simp only [Bresenham.step, if_pos h0]
      left
      refine ⟨hdy, by omega, ?_⟩
      rcases h8 with h8 | h8
      · omega
      · omega
  · refine ⟨h1, h2, h3, by simpa [Bresenham.step] using by omega, ?_, ?_, ?_, ?_⟩
    · simp only [Bresenham.step, if_neg h0]
      omega
    · simp only [Bresenham.step, if_neg h0]
      omega
    · simp only [Bresenham.step, if_neg h0]
      nlinarith [h7]
    · simp only [Bresenham.step, if_neg h0]
      rcases h8 with h8 | h8
      · left
        exact ⟨h8.1, by omega, by omega⟩
      · right
        exact ⟨h8.1, by omega⟩

theorem getLast?_cons_of_head? {α : Type} (a b x : α) (l : List α)
    (h : l.head? = some b) (hx : l.getLast? = some x) : (a :: l).getLast? = some x := by
  cases l with
  | nil => exact Option.noConfusion h
  | cons c t => simpa [List.getLast?_cons_cons] using hx

theorem Bresenham.run_spec (v : ℕ) (hv : v ≤ 7) (x0 y0 : ℤ) :
    ∀ (n : ℕ) (s : Bresenham), s.octant = v → BrInv x0 y0 s → s.point.1 ≤ s.end_x →
      (s.end_x - s.point.1).toNat + 2 ≤ n →
      (iterRun Bresenham.next n s).map (fun p => (Octant.to' v p).1) =
          intRange s.point.1 ((s.end_x - s.point.1).toNat + 1) ∧
        (iterRun Bresenham.next n s).head? = some (Octant.from' v s.point) ∧
        (iterRun Bresenham.next n s).getLast? =
          some (Octant.from' v (s.end_x, y0 + s.delta_y)) := by
  intro n
  induction n with
  | zero => intro s _ _ _ hfuel; omega
  | succ n ih =>
    intro s hoct hinv hguard hfuel
    have hnext : Bresenham.next s = some (Octant.from' v s.point, s.step) := by
      simp [Bresenham.next, hguard, hoct]
    have hxstep : s.step.point.1 = s.point.1 + 1 := rfl
    have hexstep : s.step.end_x = s.end_x := rfl
    rw [iterRun, hnext]
    dsimp only
    by_cases hlast : s.end_x ≤ s.point.1
    · have hx : s.point.1 = s.end_x := le_antisymm hguard hlast
      have hstop : Bresenham.next s.step = none := by
        simp only [Bresenham.next, hxstep, hexstep]
        rw [if_neg (by omega)]
      have hrest : iterRun Bresenham.next n s.step = [] := by
        cases n with
        | zero => rfl
        | succ m => simp [iterRun, hstop]
      have hy : s.point.2 = y0 + s.delta_y := by
        rcases hinv.err_bd with hbd | hbd
        · have hdx : 0 < s.delta_x := lt_of_lt_of_le hbd.1 hinv.dy_le_dx
          by_contra hne
          have hyb : s.point.2 - y0 ≤ s.delta_y - 1 := by
            have := hinv.y_ub
            omega
          have hmul : (s.point.2 - y0) * s.delta_x ≤ (s.delta_y - 1) * s.delta_x :=
            mul_le_mul_of_nonneg_right hyb hdx.le
          have herr := hinv.err_eq
          rw [hx, hinv.ex_eq] at herr
          nlinarith [hbd.2.2]
        · have := hinv.y_lb
          have := hinv.y_ub
          omega
      have hpt : s.point = (s.end_x, y0 + s.delta_y) := Prod.ext hx hy
      refine ⟨?_, rfl, ?_⟩
      · rw [hrest, hx]
        simp [intRange, List.range_succ, Octant.to'_from' v hv]
        exact hx
      · rw [hrest, hpt]
        rfl
    · have hlt : s.point.1 < s.end_x := lt_of_le_of_ne hguard (fun h => hlast h.ge)
      have hinv' : BrInv x0 y0 s.step := BrInv.step x0 y0 s hinv hlt
      have hguard' : s.step.point.1 ≤ s.step.end_x := by omega
      have hfuel' : (s.step.end_x - s.step.point.1).toNat + 2 ≤ n := by
        rw [hxstep, hexstep]
        omega
      have hdy : s.step.delta_y = s.delta_y := rfl
      obtain ⟨ihm, ihh, ihl⟩ := ih s.step hoct hinv' hguard' hfuel'
      refine ⟨?_, rfl, ?_⟩
      · rw [List.map_cons, ihm, Octant.to'_from' v hv, hxstep, hexstep]
        have hn : (s.end_x - s.point.1).toNat + 1 = ((s.end_x - (s.point.1 + 1)).toNat + 1) + 1 := by
          omega
        rw [hn, intRange_succ, intRange_succ, intRange_succ]
      · rw [hexstep, hdy] at ihl
        exact getLast?_cons_of_head? _ _ _ _ ihh ihl

/-! ### Supercover symmetry (claim C4)

The run of `Supercover` is driven entirely by the counter pair
`(ix, iy)`: the branch taken at each step depends only on
`ratioCmp ix nx iy ny`, and the emitted point is an affine image of the
counters.  `SC.sstep` is this counter dynamics; the symmetry proof shows
the counter path from `(0, 0)` to `(nx, ny)` is centrally symmetric. -/

namespace SC

/-- Counter dynamics of one `Supercover` step. -/
def sstep (nx ny : ℕ) (c : ℕ × ℕ) : ℕ × ℕ :=
  match ratioCmp c.1 nx c.2 ny with
  | Ordering.eq => (c.1 + 1, c.2 + 1)
  | Ordering.lt => (c.1 + 1, c.2)
  | Ordering.gt => (c.1, c.2 + 1)

/-- Counter pair after `j` steps from `(0, 0)`. -/
def orbit (nx ny : ℕ) (j : ℕ) : ℕ × ℕ :=
  (sstep nx ny)^[j] (0, 0)

/-- A counter pair inside the loop guard region. -/
def InB (nx ny : ℕ) (c : ℕ × ℕ) : Prop :=
  c.1 ≤ nx ∧ c.2 ≤ ny

/-- Merge invariant of reachable counter pairs: every consumed crossing of
one axis lies strictly before the next unconsumed crossing of the other
axis (crossings scaled by `2 * nx * ny`). -/
def Inv (nx ny : ℕ) (c : ℕ × ℕ) : Prop :=
  (c.1 = 0 ∨ (2 * c.1 - 1) * ny < (1 + 2 * c.2) * nx) ∧
    (c.2 = 0 ∨ (2 * c.2 - 1) * nx < (1 + 2 * c.1) * ny)

theorem ratioCmp_right (nx ny c1 c2 : ℕ) (hx : c1 = nx) (hy : c2 < ny) :
    ratioCmp c1 nx c2 ny = Ordering.gt := by
  subst hx
  unfold ratioCmp
  rcases Nat.eq_zero_or_pos c1 with h0 | hpos
  · simp [h0]
  · rw [if_neg (by omega), if_neg (by omega)]
    rw [Nat.compare_eq_gt]
    nlinarith

theorem ratioCmp_top (nx ny c1 c2 : ℕ) (hy : c2 = ny) (hx : c1 < nx) :
    ratioCmp c1 nx c2 ny = Ordering.lt := by
  subst hy
  unfold ratioCmp
  rw [if_neg (by omega)]
  rcases Nat.eq_zero_or_pos c2 with h0 | hpos
  · simp [h0]
  · rw [if_neg (by omega)]
    rw [Nat.compare_eq_lt]
    nlinarith

theorem sstep_inB (nx ny : ℕ) (c : ℕ × ℕ) (hin : InB nx ny c) (hne : c ≠ (nx, ny)) :
    InB nx ny (sstep nx ny c) := by
  obtain ⟨h1, h2⟩ := hin
  rcases Nat.lt_or_ge c.1 nx with hx | hx
  · rcases Nat.lt_or_ge c.2 ny with hy | hy
    · rcases hc : ratioCmp c.1 nx c.2 ny with _ | _ | _ <;>
        simp only [sstep, hc, InB] <;> exact ⟨by omega, by omega⟩
    · have hy' : c.2 = ny := le_antisymm h2 hy
      simp only [sstep, ratioCmp_top nx ny c.1 c.2 hy' hx, InB]
      exact ⟨by omega, by omega⟩
  · have hx' : c.1 = nx := le_antisymm h1 hx
    have hy : c.2 < ny := by
      rcases Nat.lt_or_ge c.2 ny with hy | hy
      · exact hy
      · exact absurd (Prod.ext hx' (le_antisymm h2 hy)) hne
    simp only [sstep, ratioCmp_right nx ny c.1 c.2 hx' hy, InB]
    exact ⟨by omega, by omega⟩

theorem sstep_sum (nx ny : ℕ) (c : ℕ × ℕ) :
    c.1 + c.2 + 1 ≤ (sstep nx ny c).1 + (sstep nx ny c).2 := by
  rcases hc : ratioCmp c.1 nx c.2 ny with _ | _ | _ <;> simp [sstep, hc] <;> omega

theorem reach_aux (nx ny : ℕ) :
    ∀ (m : ℕ) (c : ℕ × ℕ), InB nx ny c → nx + ny - (c.1 + c.2) ≤ m →
      ∃ k ≤ m, (sstep nx ny)^[k] c = (nx, ny) ∧
        ∀ j ≤ k, InB nx ny ((sstep nx ny)^[j] c) := by
  intro m
  induction m with
  | zero =>
    intro c hin hm
    have : c = (nx, ny) := by
      obtain ⟨h1, h2⟩ := hin
      have : c.1 = nx ∧ c.2 = ny := by omega
      exact Prod.ext this.1 this.2
    exact ⟨0, le_refl _, this, fun j hj => by
      simp only [Nat.le_zero.mp hj, Function.iterate_zero_apply]; exact hin⟩
  | succ m ih =>
    intro c hin hm
    by_cases hc : c = (nx, ny)
    · exact ⟨0, Nat.zero_le _, hc, fun j hj => by
        simp only [Nat.le_zero.mp hj, Function.iterate_zero_apply]; exact hin⟩
    · have hin' : InB nx ny (sstep nx ny c) := sstep_inB nx ny c hin hc
      have hsum := sstep_sum nx ny c
      obtain ⟨k, hk, hreach, hbd⟩ := ih (sstep nx ny c) hin' (by
        obtain ⟨h1, h2⟩ := hin'
        omega)
      refine ⟨k + 1, by omega, ?_, ?_⟩
      · rw [Function.iterate_succ_apply]
        exact hreach
      · intro j hj
        cases j with
        | zero => simpa using hin
        | succ i =>
          rw [Function.iterate_succ_apply]
          exact hbd i (by omega)

theorem Inv_init (nx ny : ℕ) : Inv nx ny (0, 0) := by
  constructor <;> left <;> rfl

theorem Inv_step (nx ny : ℕ) (c : ℕ × ℕ) (h : Inv nx ny c)
    (hb : InB nx ny c) (hb' : InB nx ny (sstep nx ny c)) :
    Inv nx ny (sstep nx ny c) := by
  obtain ⟨i1, i2⟩ := h
  unfold sstep at hb' ⊢
  unfold ratioCmp at hb' ⊢
  by_cases hnx : nx = 0
  · simp only [hnx, if_pos rfl] at hb' ⊢
    have hc1 : c.1 = 0 := by
      rcases i1 with h | h
      · exact h
      · simp [hnx] at h
    have hny : 1 ≤ ny := by
      obtain ⟨_, h2⟩ := hb'
      simp at h2
      omega
    constructor
    · left; exact hc1
    · right
      simp [hnx, hc1]
      omega
  · by_cases hny : ny = 0
    · rw [if_neg hnx, if_pos hny] at hb' ⊢
      have hc2 : c.2 = 0 := by
        rcases i2 with h | h
        · exact h
        · simp [hny] at h
      constructor
      · right
        simp [hny]
        positivity
      · left; exact hc2
    · rw [if_neg hnx, if_neg hny] at hb' ⊢
      rcases hcmp : compare ((1 + 2 * c.1) * ny) ((1 + 2 * c.2) * nx) with _ | _ | _ <;>
        rw [hcmp] at hb' <;> dsimp only at hb' ⊢
      · rw [Nat.compare_eq_lt] at hcmp
        constructor
        · right
          have : 2 * (c.1 + 1) - 1 = 1 + 2 * c.1 := by omega
          rw [this]
          exact hcmp
        · rcases i2 with h | h
          · left; exact h
          · right
            have hle : (1 + 2 * c.1) * ny ≤ (1 + 2 * (c.1 + 1)) * ny := by nlinarith
            dsimp only
            omega
      · rw [Nat.compare_eq_eq] at hcmp
        constructor
        · right
          have h1 : 2 * (c.1 + 1) - 1 = 1 + 2 * c.1 := by omega
          rw [h1, hcmp]
          nlinarith [Nat.pos_of_ne_zero hnx]
        · right
          have h2 : 2 * (c.2 + 1) - 1 = 1 + 2 * c.2 := by omega
          rw [h2, ← hcmp]
          nlinarith [Nat.pos_of_ne_zero hny]
      · rw [Nat.compare_eq_gt] at hcmp
        constructor
        · rcases i1 with h | h
          · left; exact h
          · right
            have hle : (1 + 2 * c.2) * nx ≤ (1 + 2 * (c.2 + 1)) * nx := by nlinarith
            dsimp only
            omega
        · right
          have : 2 * (c.2 + 1) - 1 = 1 + 2 * c.2 := by omega
          rw [this]
          exact hcmp

theorem mirror_sstep (nx ny : ℕ) (c : ℕ × ℕ) (h : Inv nx ny c) (hb : InB nx ny c)
    (hb' : InB nx ny (sstep nx ny c)) :
    sstep nx ny (nx - (sstep nx ny c).1, ny - (sstep nx ny c).2) = (nx - c.1, ny - c.2) := by
  obtain ⟨i1, i2⟩ := h
  obtain ⟨hbx, hby⟩ := hb
  by_cases hnx : nx = 0
  · have hstep : sstep nx ny c = (c.1, c.2 + 1) := by
      simp [sstep, ratioCmp, hnx]
    rw [hstep] at hb' ⊢
    obtain ⟨hbx', hby'⟩ := hb'
    have hc1 : c.1 = 0 := by omega
    have : sstep nx ny (nx - c.1, ny - (c.2 + 1)) = (nx - c.1, ny - (c.2 + 1) + 1) := by
      simp [sstep, ratioCmp, hnx]
    rw [this, hc1]
    refine Prod.ext rfl ?_
    show ny - (c.2 + 1) + 1 = ny - c.2
    omega
  · by_cases hny : ny = 0
    · have hstep : sstep nx ny c = (c.1 + 1, c.2) := by
        simp [sstep, ratioCmp, hnx, hny]
      rw [hstep] at hb' ⊢
      obtain ⟨hbx', hby'⟩ := hb'
      have hc2 : c.2 = 0 := by omega
      have : sstep nx ny (nx - (c.1 + 1), ny - c.2) = (nx - (c.1 + 1) + 1, ny - c.2) := by
        simp [sstep, ratioCmp, hnx, hny]
      rw [this, hc2]
      refine Prod.ext ?_ rfl
      show nx - (c.1 + 1) + 1 = nx - c.1
      omega
    · have hnx1 : 1 ≤ nx := Nat.pos_of_ne_zero hnx
      have hny1 : 1 ≤ ny := Nat.pos_of_ne_zero hny
      rcases hcmp : compare ((1 + 2 * c.1) * ny) ((1 + 2 * c.2) * nx) with _ | _ | _
      · rw [Nat.compare_eq_lt] at hcmp
        have hstep : sstep nx ny c = (c.1 + 1, c.2) := by
          simp only [sstep, ratioCmp, if_neg hnx, if_neg hny]
          rw [Nat.compare_eq_lt.mpr hcmp]
        rw [hstep] at hb' ⊢
        obtain ⟨hbx', hby'⟩ := hb'
        have hbx'' : c.1 + 1 ≤ nx := by simpa using hbx'
        have hTcmp : ratioCmp (nx - (c.1 + 1)) nx (ny - c.2) ny = Ordering.lt := by
          simp only [ratioCmp, if_neg hnx, if_neg hny]
          rw [Nat.compare_eq_lt]
          have hc2x : ((2 * c.2 : ℤ) - 1) * nx < (1 + 2 * c.1) * ny := by
            rcases Nat.eq_zero_or_pos c.2 with h2 | h2
            · have h0 : (0 : ℤ) ≤ (1 + 2 * (c.1 : ℤ)) * ny := by positivity
              rw [h2]
              push_cast
              nlinarith [h0, Int.ofNat_le.mpr hnx1]
            · rcases i2 with h | h
              · omega
              · have := h
                zify [show 1 ≤ 2 * c.2 by omega] at this
                exact this
          zify [hbx'', hby]
          nlinarith [hc2x]
        have : sstep nx ny (nx - (c.1 + 1), ny - c.2) = (nx - (c.1 + 1) + 1, ny - c.2) := by
          simp only [sstep, hTcmp]
        rw [this]
        refine Prod.ext ?_ rfl
        show nx - (c.1 + 1) + 1 = nx - c.1
        omega
      · rw [Nat.compare_eq_eq] at hcmp
        have hstep : sstep nx ny c = (c.1 + 1, c.2 + 1) := by
          simp only [sstep, ratioCmp, if_neg hnx, if_neg hny]
          rw [Nat.compare_eq_eq.mpr hcmp]
        rw [hstep] at hb' ⊢
        obtain ⟨hbx', hby'⟩ := hb'
        have hbx'' : c.1 + 1 ≤ nx := by simpa using hbx'
        have hby'' : c.2 + 1 ≤ ny := by simpa using hby'
        have hTcmp : ratioCmp (nx - (c.1 + 1)) nx (ny - (c.2 + 1)) ny = Ordering.eq := by
          simp only [ratioCmp, if_neg hnx, if_neg hny]
          rw [Nat.compare_eq_eq]
          have hz : ((1 + 2 * c.1 : ℤ)) * ny = (1 + 2 * c.2) * nx := by exact_mod_cast hcmp
          zify [hbx'', hby'']
          nlinarith [hz]
        have : sstep nx ny (nx - (c.1 + 1), ny - (c.2 + 1)) =
            (nx - (c.1 + 1) + 1, ny - (c.2 + 1) + 1) := by
          simp only [sstep, hTcmp]
        rw [this]
        refine Prod.ext ?_ ?_
        · show nx - (c.1 + 1) + 1 = nx - c.1
          omega
        · show ny - (c.2 + 1) + 1 = ny - c.2
          omega
      · rw [Nat.compare_eq_gt] at hcmp
        have hstep : sstep nx ny c = (c.1, c.2 + 1) := by
          simp only [sstep, ratioCmp, if_neg hnx, if_neg hny]
          rw [Nat.compare_eq_gt.mpr hcmp]
        rw [hstep] at hb' ⊢
        obtain ⟨hbx', hby'⟩ := hb'
        have hby'' : c.2 + 1 ≤ ny := by simpa using hby'
        have hTcmp : ratioCmp (nx - c.1) nx (ny - (c.2 + 1)) ny = Ordering.gt := by
          simp only [ratioCmp, if_neg hnx, if_neg hny]
          rw [Nat.compare_eq_gt]
          have hc1y : ((2 * c.1 : ℤ) - 1) * ny < (1 + 2 * c.2) * nx := by
            rcases Nat.eq_zero_or_pos c.1 with h1 | h1
            · have h0 : (0 : ℤ) ≤ (1 + 2 * (c.2 : ℤ)) * nx := by positivity
              rw [h1]
              push_cast
              nlinarith [h0, Int.ofNat_le.mpr hny1]
            · rcases i1 with h | h
              · omega
              · have := h
                zify [show 1 ≤ 2 * c.1 by omega] at this
                exact this
          zify [hby'', hbx]
          nlinarith [hc1y]
        have : sstep nx ny (nx - c.1, ny - (c.2 + 1)) = (nx - c.1, ny - (c.2 + 1) + 1) := by
          simp only [sstep, hTcmp]
        rw [this]
        refine Prod.ext rfl ?_
        show ny - (c.2 + 1) + 1 = ny - c.2
        omega

theorem orbit_zero (nx ny : ℕ) : orbit nx ny 0 = (0, 0) := rfl

theorem orbit_succ (nx ny : ℕ) (j : ℕ) :
    orbit nx ny (j + 1) = sstep nx ny (orbit nx ny j) :=
  Function.iterate_succ_apply' (sstep nx ny) j (0, 0)

theorem orbit_inv (nx ny K : ℕ) (hbd : ∀ j ≤ K, InB nx ny (orbit nx ny j)) :
    ∀ j ≤ K, Inv nx ny (orbit nx ny j) := by
  intro j
  induction j with
  | zero => intro _; exact Inv_init nx ny
  | succ i ih =>
    intro hle
    rw [orbit_succ]
    exact Inv_step nx ny (orbit nx ny i) (ih (by omega)) (hbd i (by omega))
      (by rw [← orbit_succ]; exact hbd (i + 1) hle)

theorem orbit_mirror (nx ny K : ℕ) (hK : orbit nx ny K = (nx, ny))
    (hbd : ∀ j ≤ K, InB nx ny (orbit nx ny j)) :
    ∀ j ≤ K, orbit nx ny (K - j) = (nx - (orbit nx ny j).1, ny - (orbit nx ny j).2) := by
  intro j
  induction j with
  | zero =>
    intro _
    rw [Nat.sub_zero, hK, orbit_zero]
    simp
  | succ i ih =>
    intro hle
    have hi : i ≤ K := by omega
    have hIH := ih hi
    set u := (orbit nx ny (K - (i + 1))).1 with hu
    set w := (orbit nx ny (K - (i + 1))).2 with hw
    have hKi : K - i = (K - (i + 1)) + 1 := by omega
    have hustep : sstep nx ny (orbit nx ny (K - (i + 1))) = orbit nx ny (K - i) := by
      rw [hKi, orbit_succ]
    have hinB1 : InB nx ny (orbit nx ny (K - (i + 1))) := hbd _ (by omega)
    have hinB2 : InB nx ny (orbit nx ny (K - i)) := hbd _ (by omega)
    have hinv1 : Inv nx ny (orbit nx ny (K - (i + 1))) :=
      orbit_inv nx ny K hbd _ (by omega)
    have hmirror := mirror_sstep nx ny (orbit nx ny (K - (i + 1))) hinv1 hinB1
      (by rw [hustep]; exact hinB2)
    rw [hustep, hIH] at hmirror
    have hbi : InB nx ny (orbit nx ny i) := hbd i hi
    have hin : (nx - (nx - (orbit nx ny i).1), ny - (ny - (orbit nx ny i).2)) =
        orbit nx ny i := by
      obtain ⟨h1, h2⟩ := hbi
      exact Prod.ext (by omega) (by omega)
    rw [hin] at hmirror
    rw [← orbit_succ] at hmirror
    have hin1 : InB nx ny (orbit nx ny (K - (i + 1))) := hinB1
    obtain ⟨hu1, hw1⟩ := hin1
    rw [hmirror]
    refine Prod.ext ?_ ?_ <;> dsimp only <;> omega

theorem sstep_exit (nx ny : ℕ) : ¬ InB nx ny (sstep nx ny (nx, ny)) := by
  rcases hc : ratioCmp nx nx ny ny with _ | _ | _ <;> simp [sstep, hc, InB]

/-- A `Supercover` state whose point is the affine image of the counter
pair along the fixed signs: every state of a real run has this shape. -/
def mkSC (a : ℤ × ℤ) (sx sy : ℤ) (nx ny : ℕ) (c : ℕ × ℕ) : Supercover :=
  { point := (a.1 + c.1 * sx, a.2 + c.2 * sy)
    ix := c.1
    iy := c.2
    sign_x := sx
    sign_y := sy
    ny := ny
    nx := nx }

theorem Supercover.ext' (s t : Supercover) (h1 : s.point = t.point) (h2 : s.ix = t.ix)
    (h3 : s.iy = t.iy) (h4 : s.sign_x = t.sign_x) (h5 : s.sign_y = t.sign_y)
    (h6 : s.ny = t.ny) (h7 : s.nx = t.nx) : s = t := by
  cases s
  cases t
  simp_all

theorem next_mkSC_in (a : ℤ × ℤ) (sx sy : ℤ) (nx ny : ℕ) (c : ℕ × ℕ)
    (h : InB nx ny c) :
    Supercover.next (mkSC a sx sy nx ny c) =
      some ((a.1 + c.1 * sx, a.2 + c.2 * sy), mkSC a sx sy nx ny (sstep nx ny c)) := by
  obtain ⟨h1, h2⟩ := h
  rcases hc : ratioCmp c.1 nx c.2 ny with _ | _ | _ <;>
    simp only [Supercover.next, mkSC, sstep, hc, if_pos (And.intro h1 h2)] <;>
    refine congrArg some (Prod.ext rfl (Supercover.ext' _ _ ?_ rfl rfl rfl rfl rfl rfl)) <;>
    refine Prod.ext ?_ ?_ <;> dsimp only <;> push_cast <;> ring

theorem next_mkSC_out (a : ℤ × ℤ) (sx sy : ℤ) (nx ny : ℕ) (c : ℕ × ℕ)
    (h : ¬ InB nx ny c) :
    Supercover.next (mkSC a sx sy nx ny c) = none := by
  simp only [Supercover.next, mkSC]
  exact if_neg (fun hc => h hc)

theorem map_range_succ_shift {α : Type} (f : ℕ → α) (k : ℕ) :
    (List.range (k + 1)).map f = f 0 :: (List.range k).map (fun j => f (j + 1)) := by
  rw [List.range_succ_eq_map, List.map_cons, List.map_map]
  rfl

theorem run_mk (a : ℤ × ℤ) (sx sy : ℤ) (nx ny : ℕ) :
    ∀ (k : ℕ) (c : ℕ × ℕ) (F : ℕ), (sstep nx ny)^[k] c = (nx, ny) →
      (∀ j ≤ k, InB nx ny ((sstep nx ny)^[j] c)) → k + 2 ≤ F →
      iterRun Supercover.next F (mkSC a sx sy nx ny c) =
        (List.range (k + 1)).map (fun j =>
          (a.1 + ((sstep nx ny)^[j] c).1 * sx, a.2 + ((sstep nx ny)^[j] c).2 * sy)) := by
  intro k
  induction k with
  | zero =>
    intro c F hreach hbd hF
    have hc : c = (nx, ny) := hreach
    have hin : InB nx ny c := hbd 0 (le_refl _)
    obtain ⟨F', rfl⟩ : ∃ F', F = F' + 1 := ⟨F - 1, by omega⟩
    rw [iterRun, next_mkSC_in a sx sy nx ny c hin]
    dsimp only
    have hstop : iterRun Supercover.next F' (mkSC a sx sy nx ny (sstep nx ny c)) = [] := by
      obtain ⟨F'', rfl⟩ : ∃ F'', F' = F'' + 1 := ⟨F' - 1, by omega⟩
      rw [iterRun, next_mkSC_out]
      rw [hc]
      exact sstep_exit nx ny
    rw [hstop]
    simp [List.range_succ]
  | succ k ih =>
    intro c F hreach hbd hF
    have hin : InB nx ny c := hbd 0 (Nat.zero_le _)
    obtain ⟨F', rfl⟩ : ∃ F', F = F' + 1 := ⟨F - 1, by omega⟩
    rw [iterRun, next_mkSC_in a sx sy nx ny c hin]
    dsimp only
    rw [ih (sstep nx ny c) F'
      (by rw [← Function.iterate_succ_apply]; exact hreach)
      (fun j hj => by rw [← Function.iterate_succ_apply]; exact hbd (j + 1) (by omega))
      (by omega)]
    conv_rhs => rw [map_range_succ_shift]
    rfl

/-- Central symmetry of the whole counter path, packaged for the final
theorem: the path visits `(nx, ny) - orbit j` at time `K - j`. -/
theorem orbit_reach (nx ny : ℕ) :
    ∃ K ≤ nx + ny, orbit nx ny K = (nx, ny) ∧
      ∀ j ≤ K, InB nx ny (orbit nx ny j) := by
  obtain ⟨K, hK, hreach, hbd⟩ := reach_aux nx ny (nx + ny) (0, 0)
    ⟨Nat.zero_le _, Nat.zero_le _⟩ (by omega)
  exact ⟨K, hK, hreach, hbd⟩

end SC

/-- C4: for all integer point pairs, the `Supercover` sequence from `a` to
`b` equals the reverse of the sequence from `b` to `a`. -/
theorem supercover_reverse_symmetric (a b : ℤ × ℤ) :
    Supercover.list a b = (Supercover.list b a).reverse := by
  set sx := (b.1 - a.1).sign with hsx_def
  set sy := (b.2 - a.2).sign with hsy_def
  set nx := (b.1 - a.1).natAbs with hnx_def
  set ny := (b.2 - a.2).natAbs with hny_def
  obtain ⟨K, hKle, hK, hbd⟩ := SC.orbit_reach nx ny
  have hnewF : Supercover.new a b = SC.mkSC a sx sy nx ny (0, 0) := by
    simp [Supercover.new, SC.mkSC]
  have hnewB : Supercover.new b a = SC.mkSC b (-sx) (-sy) nx ny (0, 0) := by
    refine SC.Supercover.ext' _ _ ?_ rfl rfl ?_ ?_ ?_ ?_
    · show b = (b.1 + ((0 : ℕ) : ℤ) * (-sx), b.2 + ((0 : ℕ) : ℤ) * (-sy))
      simp
    · show (a.1 - b.1).sign = -sx
      rw [hsx_def, show a.1 - b.1 = -(b.1 - a.1) from by ring, Int.sign_neg]
    · show (a.2 - b.2).sign = -sy
      rw [hsy_def, show a.2 - b.2 = -(b.2 - a.2) from by ring, Int.sign_neg]
    · show (a.2 - b.2).natAbs = ny
      rw [hny_def, show a.2 - b.2 = -(b.2 - a.2) from by ring, Int.natAbs_neg]
    · show (a.1 - b.1).natAbs = nx
      rw [hnx_def, show a.1 - b.1 = -(b.1 - a.1) from by ring, Int.natAbs_neg]
  have hBfuel : (a.1 - b.1).natAbs + (a.2 - b.2).natAbs + 2 = nx + ny + 2 := by
    have e1 : a.1 - b.1 = -(b.1 - a.1) := by ring
    have e2 : a.2 - b.2 = -(b.2 - a.2) := by ring
    rw [e1, e2, Int.natAbs_neg, Int.natAbs_neg]
  have hrunF := SC.run_mk a sx sy nx ny K (0, 0) (nx + ny + 2) hK hbd (by omega)
  have hrunB := SC.run_mk b (-sx) (-sy) nx ny K (0, 0) (nx + ny + 2) hK hbd (by omega)
  have hLF : Supercover.list a b = (List.range (K + 1)).map (fun j =>
      (a.1 + ((SC.sstep nx ny)^[j] (0, 0)).1 * sx,
        a.2 + ((SC.sstep nx ny)^[j] (0, 0)).2 * sy)) := by
    rw [Supercover.list, hnewF]
    exact hrunF
  have hLB : Supercover.list b a = (List.range (K + 1)).map (fun j =>
      (b.1 + ((SC.sstep nx ny)^[j] (0, 0)).1 * (-sx),
        b.2 + ((SC.sstep nx ny)^[j] (0, 0)).2 * (-sy))) := by
    rw [Supercover.list, hBfuel, hnewB]
    exact hrunB
  rw [hLF, hLB]
  have hsxv : (nx : ℤ) * sx = b.1 - a.1 := by
    rw [hnx_def, hsx_def, mul_comm]
    exact Int.sign_mul_natAbs _
  have hsyv : (ny : ℤ) * sy = b.2 - a.2 := by
    rw [hny_def, hsy_def, mul_comm]
    exact Int.sign_mul_natAbs _
  refine List.ext_getElem (by simp) ?_
  intro i h1 h2
  simp only [List.length_map, List.length_range] at h1
  have hi : i ≤ K := by omega
  rw [List.getElem_reverse, List.getElem_map, List.getElem_range,
    List.getElem_map, List.getElem_range]
  have hlen : ((List.range (K + 1)).map (fun j =>
      (b.1 + ((SC.sstep nx ny)^[j] (0, 0)).1 * (-sx),
        b.2 + ((SC.sstep nx ny)^[j] (0, 0)).2 * (-sy)))).length - 1 - i = K - i := by
    simp
  rw [hlen]
  have hmir := SC.orbit_mirror nx ny K hK hbd i hi
  have horb : (SC.sstep nx ny)^[K - i] (0, 0) =
      (nx - ((SC.sstep nx ny)^[i] (0, 0)).1, ny - ((SC.sstep nx ny)^[i] (0, 0)).2) := hmir
  rw [horb]
  obtain ⟨hu, hw⟩ := hbd i hi
  have hu' : ((SC.sstep nx ny)^[i] (0, 0)).1 ≤ nx := hu
  have hw' : ((SC.sstep nx ny)^[i] (0, 0)).2 ≤ ny := hw
  refine Prod.ext ?_ ?_ <;> dsimp only
  · rw [Nat.cast_sub hu']
    linear_combination hsxv
  · rw [Nat.cast_sub hw']
    linear_combination hsyv

theorem count_eq_one_of_nodup_mem {α : Type} [BEq α] [LawfulBEq α] :
    ∀ {l : List α} {a : α}, l.Nodup → a ∈ l → l.count a = 1 := by
  intro l
  induction l with
  | nil => intro a _ h; exact absurd h (List.not_mem_nil a)
  | cons b t ih =>
    intro a hn hm
    have hbt : b ∉ t := (List.nodup_cons.mp hn).1
    have hnt : t.Nodup := (List.nodup_cons.mp hn).2
    rcases List.mem_cons.mp hm with rfl | hat
    · rw [List.count_cons_self, List.count_eq_zero.mpr hbt]
    · have hne : a ≠ b := fun h => hbt (h ▸ hat)
      rw [List.count_cons_of_ne hne, ih hnt hat]

theorem mem_of_head?_eq {α : Type} (l : List α) (a : α) (h : l.head? = some a) : a ∈ l := by
  cases l with
  | nil => exact Option.noConfusion h
  | cons b t =>
    simp only [List.head?_cons, Option.some.injEq] at h
    simp [h]

theorem mem_of_getLast?_eq {α : Type} : ∀ (l : List α) (a : α), l.getLast? = some a → a ∈ l := by
  intro l
  induction l with
  | nil => intro a h; exact Option.noConfusion h
  | cons b t ih =>
    intro a h
    cases t with
    | nil =>
      simp only [List.getLast?_singleton, Option.some.injEq] at h
      simp [h]
    | cons c t' =>
      rw [List.getLast?_cons_cons] at h
      exact List.mem_cons_of_mem _ (ih a h)

/-- C6: for every pair of integer points, the `Bresenham` sequence contains
the start exactly once, as its first element, and the end exactly once, as
its last element. -/
theorem bresenham_endpoints_exactly_once (a b : ℤ × ℤ) :
    (Bresenham.list a b).head? = some a ∧
      (Bresenham.list a b).getLast? = some b ∧
      (Bresenham.list a b).count a = 1 ∧
      (Bresenham.list a b).count b = 1 := by
  have hv : Octant.new a b ≤ 7 := Octant.new_le_seven a b
  obtain ⟨hY0, hYX⟩ := Octant.to'_new_normalized a b
  set v := Octant.new a b with hvdef
  set A := Octant.to' v a with hA
  set B := Octant.to' v b with hB
  have hinv : BrInv A.1 A.2 (Bresenham.new a b) := by
    refine ⟨hY0, hYX, by show B.1 = A.1 + (B.1 - A.1); ring, le_refl _, le_refl _, ?_, ?_, ?_⟩
    · show A.2 ≤ A.2 + (B.2 - A.2)
      omega
    · show B.2 - A.2 - (B.1 - A.1) = (A.1 - A.1 + 1) * (B.2 - A.2) - (A.2 - A.2) * (B.1 - A.1) -
        (B.1 - A.1)
      ring
    · rcases lt_or_eq_of_le hY0 with hpos | hzero
      · left
        refine ⟨hpos, ?_, ?_⟩
        · show -(B.1 - A.1) < B.2 - A.2 - (B.1 - A.1)
          omega
        · show B.2 - A.2 - (B.1 - A.1) < B.2 - A.2
          omega
      · right
        refine ⟨hzero.symm, ?_⟩
        show B.2 - A.2 - (B.1 - A.1) = -(B.1 - A.1)
        omega
  have hguard : (Bresenham.new a b).point.1 ≤ (Bresenham.new a b).end_x := by
    show A.1 ≤ B.1
    omega
  obtain ⟨hm, hh, hl⟩ := Bresenham.run_spec v hv A.1 A.2
    ((B.1 - A.1).toNat.succ.succ) (Bresenham.new a b) rfl hinv hguard (le_refl _)
  have hLdef : Bresenham.list a b =
      iterRun Bresenham.next ((B.1 - A.1).toNat.succ.succ) (Bresenham.new a b) := rfl
  have hhead : (Bresenham.list a b).head? = some a := by
    rw [hLdef, hh]
    show some (Octant.from' v (Octant.to' v a)) = some a
    rw [Octant.from'_to' v hv]
  have hlast : (Bresenham.list a b).getLast? = some b := by
    rw [hLdef, hl]
    have : ((Bresenham.new a b).end_x, A.2 + (Bresenham.new a b).delta_y) = B := by
      show (B.1, A.2 + (B.2 - A.2)) = B
      have : A.2 + (B.2 - A.2) = B.2 := by ring
      rw [this]
    rw [this]
    show some (Octant.from' v (Octant.to' v b)) = some b
    rw [Octant.from'_to' v hv]
  have hnodup : (Bresenham.list a b).Nodup := by
    apply List.Nodup.of_map (fun p => (Octant.to' v p).1)
    rw [hLdef, hm]
    exact intRange_nodup _ _
  refine ⟨hhead, hlast, ?_, ?_⟩
  · exact count_eq_one_of_nodup_mem hnodup (mem_of_head?_eq _ _ hhead)
  · exact count_eq_one_of_nodup_mem hnodup (mem_of_getLast?_eq _ _ hlast)

/-! ### Bresenham3d (src/bresenham_3d.rs)

All fields are machine integers in the source.  The initialization
`longest / T::cast(2)` is Rust division truncating toward zero; since
`longest` is a maximum of absolute values it is non-negative, so Lean's
integer division agrees with it. -/

/-- State of the Rust `Bresenham3d` iterator. -/
structure Bresenham3d where
  sign_x : ℤ
  sign_y : ℤ
  sign_z : ℤ
  err_x : ℤ
  err_y : ℤ
  err_z : ℤ
  len_x : ℤ
  len_y : ℤ
  len_z : ℤ
  longest : ℤ
  count : ℤ
  voxel : ℤ × ℤ × ℤ

/-- Rust `Bresenham3d::new`. -/
def Bresenham3d.new (start finish : ℤ × ℤ × ℤ) : Bresenham3d :=
  let delta_x := finish.1 - start.1
  let delta_y := finish.2.1 - start.2.1
  let delta_z := finish.2.2 - start.2.2
  let len_x := |delta_x|
  let len_y := |delta_y|
  let len_z := |delta_z|
  let longest := max len_x (max len_y len_z)
  { len_x := len_x
    len_y := len_y
    len_z := len_z
    longest := longest
    count := longest
    err_x := longest / 2
    err_y := longest / 2
    err_z := longest / 2
    sign_x := delta_x.sign
    sign_y := delta_y.sign
    sign_z := delta_z.sign
    voxel := start }

/-- State update of one `Bresenham3d` step.  In the source the three
per-axis `if` blocks run in sequence, but each one reads and writes only
its own axis's error (already decremented by its own length) and its own
voxel coordinate, so they are modelled as independent conditional field
updates. -/
def Bresenham3d.step (s : Bresenham3d) : Bresenham3d :=
  let err_x := s.err_x - s.len_x
  let err_y := s.err_y - s.len_y
  let err_z := s.err_z - s.len_z
  { s with
    count := s.count - 1
    err_x := if err_x < 0 then err_x + s.longest else err_x
    err_y := if err_y < 0 then err_y + s.longest else err_y
    err_z := if err_z < 0 then err_z + s.longest else err_z
    voxel := (if err_x < 0 then s.voxel.1 + s.sign_x else s.voxel.1,
              if err_y < 0 then s.voxel.2.1 + s.sign_y else s.voxel.2.1,
              if err_z < 0 then s.voxel.2.2 + s.sign_z else s.voxel.2.2) }

/-- Rust `<Bresenham3d as Iterator>::next`: emit the current voxel (captured
after the error decrements but before any coordinate moves) and step. -/
def Bresenham3d.next (s : Bresenham3d) : Option ((ℤ × ℤ × ℤ) × Bresenham3d) :=
  if 0 ≤ s.count then some (s.voxel, s.step) else none

/-- Collected output of `Bresenham3d` with enough fuel for the whole walk. -/
def Bresenham3d.list (start finish : ℤ × ℤ × ℤ) : List (ℤ × ℤ × ℤ) :=
  iterRun Bresenham3d.next
    (max (finish.1 - start.1).natAbs
        (max (finish.2.1 - start.2.1).natAbs (finish.2.2 - start.2.2).natAbs) + 2)
    (Bresenham3d.new start finish)

example : Bresenham3d.list (0, 0, 0) (5, 5, 5) =
    [(0, 0, 0), (1, 1, 1), (2, 2, 2), (3, 3, 3), (4, 4, 4), (5, 5, 5)] := by decide

example : Bresenham3d.list (0, 0, 0) (5, 6, 7) =
    [(0, 0, 0), (1, 1, 1), (1, 2, 2), (2, 3, 3), (3, 3, 4), (4, 4, 5), (4, 5, 6), (5, 6, 7)] := by
  decide

theorem Bresenham3d.run_length (n : ℕ) :
    ∀ s : Bresenham3d, 0 ≤ s.count → s.count.toNat + 2 ≤ n →
      (iterRun Bresenham3d.next n s).length = s.count.toNat + 1 := by
  induction n with
  | zero => intro s h hn; omega
  | succ n ih =>
    intro s h hn
    have hnext : Bresenham3d.next s = some (s.voxel, s.step) := by
      simp [Bresenham3d.next, h]
    have hcount : s.step.count = s.count - 1 := rfl
    rw [iterRun, hnext]
    by_cases h0 : s.count = 0
    · have hstop : Bresenham3d.next s.step = none := by
        simp [Bresenham3d.next, hcount, h0]
      cases n with
      | zero => omega
      | succ m => simp [iterRun, hstop, h0]
    · have := ih s.step (by omega) (by omega)
      simp only [List.length_cons, this, hcount]
      omega

/-- C5: for every pair of start and end voxels, `Bresenham3d` emits exactly
`max(|dx|, |dy|, |dz|) + 1` voxels. -/
theorem bresenham3d_count_law (start finish : ℤ × ℤ × ℤ) :
    (Bresenham3d.list start finish).length =
      max (finish.1 - start.1).natAbs
        (max (finish.2.1 - start.2.1).natAbs (finish.2.2 - start.2.2).natAbs) + 1 := by
  have hcnt : (Bresenham3d.new start finish).count =
      (max (finish.1 - start.1).natAbs
        (max (finish.2.1 - start.2.1).natAbs (finish.2.2 - start.2.2).natAbs) : ℕ) := by
    show max |finish.1 - start.1| (max |finish.2.1 - start.2.1| |finish.2.2 - start.2.2|) = _
    rw [Int.abs_eq_natAbs, Int.abs_eq_natAbs, Int.abs_eq_natAbs, ← Nat.cast_max, ← Nat.cast_max]
  have hcnt2 : (Bresenham3d.new start finish).count.toNat =
      max (finish.1 - start.1).natAbs
        (max (finish.2.1 - start.2.1).natAbs (finish.2.2 - start.2.2).natAbs) := by
    rw [hcnt]; exact Int.toNat_natCast _
  have h0 : 0 ≤ (Bresenham3d.new start finish).count := by rw [hcnt]; positivity
  have := Bresenham3d.run_length
    (max (finish.1 - start.1).natAbs
      (max (finish.2.1 - start.2.1).natAbs (finish.2.2 - start.2.2).natAbs) + 2)
    (Bresenham3d.new start finish) h0 (by omega)
  rw [Bresenham3d.list, this, hcnt2]

/-- C10: the tag computed by `Octant::new` always lies in `0..=7`, so the
`_ => unreachable!()` arms of `Octant::to` and `Octant::from` (the `_`
default arms in the embedding) are never executed for tags obtained from
`Octant::new`. -/
theorem octant_tag_le_seven (s e : ℤ × ℤ) : Octant.new s e ≤ 7 :=
  Octant.new_le_seven s e

/-! ### Midpoint (src/midpoint.rs)

The file has its own private `octant` / `to_octant` / `from_octant`
functions; the first two operate on `f32` points, modelled as `ℚ`.  The
`_ => unreachable!()` arms are modelled by the junk value `(0, 0)` as in
`Octant`. -/

namespace midpoint

/-- Octant selector of midpoint.rs, on rational points. -/
def octant (start finish : ℚ × ℚ) : ℕ :=
  let dx := finish.1 - start.1
  let dy := finish.2 - start.2
  let v0 : ℕ := 0
  let p1 := if dy < 0 then (-dx, -dy, v0 + 4) else (dx, dy, v0)
  let p2 :=
    if p1.1 < 0 then (p1.2.1, -p1.1, p1.2.2 + 2) else (p1.1, p1.2.1, p1.2.2)
  if p2.1 < p2.2.1 then p2.2.2 + 1 else p2.2.2

/-- Midpoint's `to_octant` on rational points. -/
def to_octant (octant : ℕ) (point : ℚ × ℚ) : ℚ × ℚ :=
  match octant with
  | 0 => (point.1, point.2)
  | 1 => (point.2, point.1)
  | 2 => (point.2, -point.1)
  | 3 => (-point.1, point.2)
  | 4 => (-point.1, -point.2)
  | 5 => (-point.2, -point.1)
  | 6 => (-point.2, point.1)
  | 7 => (point.1, -point.2)
  | _ => (0, 0)

/-- Midpoint's `from_octant` on integer points. -/
def from_octant (octant : ℕ) (point : ℤ × ℤ) : ℤ × ℤ :=
  match octant with
  | 0 => (point.1, point.2)
  | 1 => (point.2, point.1)
  | 2 => (-point.2, point.1)
  | 3 => (-point.1, point.2)
  | 4 => (-point.1, -point.2)
  | 5 => (-point.2, -point.1)
  | 6 => (point.2, -point.1)
  | 7 => (point.1, -point.2)
  | _ => (0, 0)

end midpoint

/-- State of the Rust `Midpoint` iterator. -/
structure Midpoint where
  octant : ℕ
  a : ℚ
  b : ℚ
  x : ℤ
  y : ℤ
  k : ℚ
  end_x : ℤ
  orthogonal : Bool
  return_first : Bool

/-- Rust `Midpoint::new`.  The initial `y` is
`((-a * x as f32 - c) / b).round() as isize`: when `start = end` the line
coefficients `a`, `b`, `c` are all zero, Rust computes `0.0 / 0.0 = NaN`,
and the `as isize` cast saturates NaN to 0; in the rational model the
division by zero yields 0 and `rustRound 0 = 0`, the same value. -/
def Midpoint.new (start finish : ℚ × ℚ) (orthogonal : Bool) : Midpoint :=
  let octant := midpoint.octant start finish
  let start' := midpoint.to_octant octant start
  let finish' := midpoint.to_octant octant finish
  let a := -(finish'.2 - start'.2)
  let b := finish'.1 - start'.1
  let c := start'.1 * finish'.2 - finish'.1 * start'.2
  let x := rustRound start'.1
  let y := rustRound ((-a * (x : ℚ) - c) / b)
  { octant := octant
    a := a
    b := b
    x := x
    y := y
    orthogonal := orthogonal
    k := a * ((x : ℚ) + 1) + b * ((y : ℚ) + 1 / 2) + c
    return_first := true
    end_x := rustRound finish'.1 }

/-- Rust `<Midpoint as Iterator>::next`. -/
def Midpoint.next (s : Midpoint) : Option ((ℤ × ℤ) × Midpoint) :=
  if s.return_first then
    some (midpoint.from_octant s.octant (s.x, s.y), { s with return_first := false })
  else if s.x < s.end_x then
    let x := s.x + 1
    if s.k > 0 then
      some (midpoint.from_octant s.octant (x, s.y), { s with x := x, k := s.k + s.a })
    else if s.orthogonal then
      some (midpoint.from_octant s.octant (x - 1, s.y + 1),
        { s with x := x, y := s.y + 1, k := s.k + s.a + s.b, return_first := true })
    else
      some (midpoint.from_octant s.octant (x, s.y + 1),
        { s with x := x, y := s.y + 1, k := s.k + s.a + s.b })
  else
    none

/-- Collected output of `Midpoint` with enough fuel for the whole walk. -/
def Midpoint.list (start finish : ℚ × ℚ) (orthogonal : Bool) : List (ℤ × ℤ) :=
  iterRun Midpoint.next
    (2 * (rustRound (midpoint.to_octant (midpoint.octant start finish) finish).1 -
        rustRound (midpoint.to_octant (midpoint.octant start finish) start).1).toNat + 3)
    (Midpoint.new start finish orthogonal)

theorem midpoint_octant_self (p : ℚ × ℚ) : midpoint.octant p p = 0 := by
  simp [midpoint.octant]

theorem midpoint_new_self (p : ℚ × ℚ) (orth : Bool) :
    Midpoint.new p p orth =
      { octant := 0, a := 0, b := 0, x := rustRound p.1, y := 0, k := 0,
        end_x := rustRound p.1, orthogonal := orth, return_first := true } := by
  unfold Midpoint.new
  rw [midpoint_octant_self]
  simp only [midpoint.to_octant]
  norm_num [rustRound]

/-- C7 (amended): for every point `p`, `Midpoint::new(p, p, orthogonal)`
emits exactly one point, namely `(round(p.x), 0)` — not `p` rounded
coordinate-wise: the degenerate division `0.0 / 0.0` makes the y
coordinate the NaN-saturating cast value 0. -/
theorem midpoint_degenerate_single_point (p : ℚ × ℚ) (orth : Bool) (n : ℕ) :
    iterRun Midpoint.next (n + 1) (Midpoint.new p p orth) = [(rustRound p.1, 0)] := by
  rw [midpoint_new_self]
  rw [iterRun]
  have h1 : Midpoint.next
      { octant := 0, a := 0, b := 0, x := rustRound p.1, y := 0, k := 0,
        end_x := rustRound p.1, orthogonal := orth, return_first := true } =
      some ((rustRound p.1, 0),
        { octant := 0, a := 0, b := 0, x := rustRound p.1, y := 0, k := 0,
          end_x := rustRound p.1, orthogonal := orth, return_first := false }) := by
    simp [Midpoint.next, midpoint.from_octant]
  rw [h1]
  have h2 : Midpoint.next
      { octant := 0, a := 0, b := 0, x := rustRound p.1, y := 0, k := 0,
        end_x := rustRound p.1, orthogonal := orth, return_first := false } = none := by
    simp [Midpoint.next]
  cases n with
  | zero => rfl
  | succ m => simp [iterRun, h2]

/-- C7 (counterexample): at `p = (0, 1)` the single emitted point is
`(0, 0)`, while the claim (coordinate-wise rounding of `p`) demands
`(0, 1)`. -/
theorem midpoint_degenerate_cex :
    iterRun Midpoint.next 2 (Midpoint.new (0, 1) (0, 1) false) = [(0, 0)] ∧
      rustRound ((1 : ℚ)) = 1 ∧ ((0 : ℤ), (0 : ℤ)) ≠ ((0 : ℤ), (1 : ℤ)) := by
  refine ⟨?_, by norm_num [rustRound], by decide⟩
  have := midpoint_degenerate_single_point (0, 1) false 1
  rw [this]
  norm_num [rustRound]

/-! ### XiaolinWu (src/xiaolin_wu.rs)

All floating state is modelled as `ℚ`.  The degenerate gradient case: when
the (transformed, sorted) x-delta is zero Rust computes `±inf` or NaN and
the `gradient == 0.0` guard leaves it unchanged, while the rational model
computes `0 / 0 = 0` and replaces it by `1.0`.  This only happens when
`start = end` (see the symmetry proof), and the gradient is only ever
added to `y` after the final emission there, so no emitted item depends on
it. -/

/-- State of the Rust `XiaolinWu` iterator. -/
structure XiaolinWu where
  steep : Bool
  gradient : ℚ
  x : ℤ
  y : ℚ
  end_x : ℤ
  lower : Bool

/-- Canonicalization performed by `XiaolinWu::new`: transpose both points
when the line is steep, then swap them when the (transformed) start is to
the right of the end.  In the source this is done by sequential mutation
of `start` and `end`; here the same two conditional rewrites are applied
to the pair. -/
def XiaolinWu.canon (start finish : ℚ × ℚ) : (ℚ × ℚ) × (ℚ × ℚ) :=
  let steep := |finish.2 - start.2| > |finish.1 - start.1|
  let p := if steep then ((start.2, start.1), (finish.2, finish.1)) else (start, finish)
  if p.1.1 > p.2.1 then (p.2, p.1) else p

/-- Rust `XiaolinWu::new`. -/
def XiaolinWu.new (start finish : ℚ × ℚ) : XiaolinWu :=
  let q := XiaolinWu.canon start finish
  let gradient0 := (q.2.2 - q.1.2) / (q.2.1 - q.1.1)
  let gradient := if gradient0 = 0 then 1 else gradient0
  { steep := decide (|finish.2 - start.2| > |finish.1 - start.1|)
    gradient := gradient
    x := rustRound q.1.1
    y := q.1.2
    end_x := rustRound q.2.1
    lower := false }

/-- Rust `<XiaolinWu as Iterator>::next`. -/
def XiaolinWu.next (s : XiaolinWu) : Option (((ℤ × ℤ) × ℚ) × XiaolinWu) :=
  if s.x ≤ s.end_x then
    let fpart := s.y - ⌊s.y⌋
    let y0 := rustTrunc s.y
    let y := if s.lower then y0 + 1 else y0
    let point := if s.steep then (y, s.x) else (s.x, y)
    if s.lower then
      some ((point, fpart), { s with lower := false, x := s.x + 1, y := s.y + s.gradient })
    else if fpart > 0 then
      some ((point, 1 - fpart), { s with lower := true })
    else
      some ((point, 1 - fpart), { s with x := s.x + 1, y := s.y + s.gradient })
  else
    none

theorem XiaolinWu.canon_comm (a b : ℚ × ℚ) :
    XiaolinWu.canon a b = XiaolinWu.canon b a := by
  unfold XiaolinWu.canon
  dsimp only
  by_cases hs : |b.2 - a.2| > |b.1 - a.1|
  · have hs' : |a.2 - b.2| > |a.1 - b.1| := by
      rwa [abs_sub_comm a.2, abs_sub_comm a.1]
    rw [if_pos hs, if_pos hs']
    dsimp only
    rcases lt_trichotomy a.2 b.2 with h | h | h
    · rw [if_neg (by linarith), if_pos (by linarith)]
    · exfalso
      rw [h] at hs
      simp only [sub_self, abs_zero] at hs
      linarith [abs_nonneg (b.1 - a.1)]
    · rw [if_pos (by linarith), if_neg (by linarith)]
  · have hs' : ¬ |a.2 - b.2| > |a.1 - b.1| := by
      rwa [abs_sub_comm a.2, abs_sub_comm a.1]
    rw [if_neg hs, if_neg hs']
    rcases lt_trichotomy a.1 b.1 with h | h | h
    · rw [if_neg (by linarith), if_pos (by linarith)]
    · have hy : a.2 = b.2 := by
        rw [not_lt, h] at hs
        simp only [sub_self, abs_zero] at hs
        have h0 : |b.2 - a.2| = 0 := le_antisymm hs (abs_nonneg _)
        have := abs_eq_zero.mp h0
        linarith
      have hab : a = b := Prod.ext h hy
      rw [hab]
    · rw [if_pos (by linarith), if_neg (by linarith)]

theorem XiaolinWu.new_comm (a b : ℚ × ℚ) :
    XiaolinWu.new a b = XiaolinWu.new b a := by
  unfold XiaolinWu.new
  dsimp only
  rw [XiaolinWu.canon_comm]
  have hsteep : (|b.2 - a.2| > |b.1 - a.1|) = (|a.2 - b.2| > |a.1 - b.1|) := by
    rw [abs_sub_comm b.2, abs_sub_comm b.1]
  congr 1
  exact decide_eq_decide.mpr (iff_of_eq hsteep)

example : iterRun XiaolinWu.next 6 (XiaolinWu.new (0, 0) (2, 1)) =
    [(((0 : ℤ), (0 : ℤ)), (1 : ℚ)), (((1 : ℤ), (0 : ℤ)), (1 / 2 : ℚ)),
      (((1 : ℤ), (1 : ℤ)), (1 / 2 : ℚ)), (((2 : ℤ), (1 : ℤ)), (1 : ℚ))] := by
  norm_num [iterRun, XiaolinWu.next, XiaolinWu.new, XiaolinWu.canon, rustRound, rustTrunc]

/-- C8: for any two points, the `XiaolinWu` sequences for `(a, b)` and
`(b, a)` are identical: both constructors canonicalize to the same
left-to-right state, so every prefix of the two runs agrees. -/
theorem xiaolinWu_swap_invariant (a b : ℚ × ℚ) (fuel : ℕ) :
    iterRun XiaolinWu.next fuel (XiaolinWu.new a b) =
      iterRun XiaolinWu.next fuel (XiaolinWu.new b a) := by
  rw [XiaolinWu.new_comm]

/-! ### WalkVoxels (src/src/walk_voxels.rs)

The `f32` coordinate type is modelled as the exact rationals `ℚ`; all
arithmetic performed by this iterator on in-range inputs is exact in `f32`
up to rounding, and the embedding keeps it exact. -/

/-- `compare` from src/src/walk_voxels.rs: the sign of `a - b`. -/
def WalkVoxels.compare (a b : ℤ) : ℤ :=
  if a > b then 1 else if a = b then 0 else -1

/-- `VoxelOrigin`: whether a voxel's origin is at its corner or center. -/
inductive VoxelOrigin where
  | Corner : VoxelOrigin
  | Center : VoxelOrigin

/-- `VoxelOrigin::round`: floor each coordinate for `Corner`, round
(`f32::round`, half away from zero) for `Center`. -/
def VoxelOrigin.round : VoxelOrigin → ℚ × ℚ × ℚ → ℤ × ℤ × ℤ
  | VoxelOrigin.Corner, v => (⌊v.1⌋, ⌊v.2.1⌋, ⌊v.2.2⌋)
  | VoxelOrigin.Center, v => (rustRound v.1, rustRound v.2.1, rustRound v.2.2)

/-- State of the `WalkVoxels` iterator (`struct WalkVoxels`,
src/src/walk_voxels.rs:68-80), with `I = f32` modelled as `ℚ` and `O` as
`ℤ`. -/
structure WalkVoxels where
  voxel : ℤ × ℤ × ℤ
  count : ℤ
  sign_x : ℤ
  sign_y : ℤ
  sign_z : ℤ
  err_x : ℚ
  err_y : ℚ
  err_z : ℚ
  d_err_x : ℚ
  d_err_y : ℚ
  d_err_z : ℚ

/-- `WalkVoxels::new` (src/src/walk_voxels.rs:85-152). -/
def WalkVoxels.new (start finish : ℚ × ℚ × ℚ) (origin : VoxelOrigin) : WalkVoxels :=
  let start_i := origin.round start
  let end_i := origin.round finish
  let count := |start_i.1 - end_i.1| + |start_i.2.1 - end_i.2.1| + |start_i.2.2 - end_i.2.2|
  let sign_x := WalkVoxels.compare end_i.1 start_i.1
  let sign_y := WalkVoxels.compare end_i.2.1 start_i.2.1
  let sign_z := WalkVoxels.compare end_i.2.2 start_i.2.2
  let x_plane := start_i.1 + (if end_i.1 > start_i.1 then 1 else 0)
  let y_plane := start_i.2.1 + (if end_i.2.1 > start_i.2.1 then 1 else 0)
  let z_plane := start_i.2.2 + (if end_i.2.2 > start_i.2.2 then 1 else 0)
  let vx := if start.1 = finish.1 then 1 else finish.1 - start.1
  let vy := if start.2.1 = finish.2.1 then 1 else finish.2.1 - start.2.1
  let vz := if start.2.2 = finish.2.2 then 1 else finish.2.2 - start.2.2
  let vxvy := vx * vy
  let vxvz := vx * vz
  let vyvz := vy * vz
  { voxel := start_i
    count := count
    sign_x := sign_x
    sign_y := sign_y
    sign_z := sign_z
    err_x := ((x_plane : ℚ) - start.1) * vyvz
    err_y := ((y_plane : ℚ) - start.2.1) * vxvz
    err_z := ((z_plane : ℚ) - start.2.2) * vxvy
    d_err_x := (sign_x : ℚ) * vyvz
    d_err_y := (sign_y : ℚ) * vxvz
    d_err_z := (sign_z : ℚ) * vxvy }

/-- `<WalkVoxels as Iterator>::next` (src/src/walk_voxels.rs:164-194). -/
def WalkVoxels.next (s : WalkVoxels) : Option ((ℤ × ℤ × ℤ) × WalkVoxels) :=
  if 0 ≤ s.count then
    let s := { s with count := s.count - 1 }
    let xr := |s.err_x|
    let yr := |s.err_y|
    let zr := |s.err_z|
    let voxel := s.voxel
    if s.sign_x ≠ 0 ∧ (s.sign_y = 0 ∨ xr < yr) ∧ (s.sign_z = 0 ∨ xr < zr) then
      some (voxel, { s with voxel := (s.voxel.1 + s.sign_x, s.voxel.2.1, s.voxel.2.2),
                            err_x := s.err_x + s.d_err_x })
    else if s.sign_y ≠ 0 ∧ (s.sign_z = 0 ∨ yr < zr) then
      some (voxel, { s with voxel := (s.voxel.1, s.voxel.2.1 + s.sign_y, s.voxel.2.2),
                            err_y := s.err_y + s.d_err_y })
    else if s.sign_z ≠ 0 then
      some (voxel, { s with voxel := (s.voxel.1, s.voxel.2.1, s.voxel.2.2 + s.sign_z),
                            err_z := s.err_z + s.d_err_z })
    else
      some (voxel, s)
  else
    none

/-- Collected output of `WalkVoxels` with enough fuel for the whole walk. -/
def WalkVoxels.list (start finish : ℚ × ℚ × ℚ) (origin : VoxelOrigin) : List (ℤ × ℤ × ℤ) :=
  iterRun WalkVoxels.next ((WalkVoxels.new start finish origin).count.toNat + 2)
    (WalkVoxels.new start finish origin)

example : WalkVoxels.list (0.472, -1.100, 0.179) (1.114, -0.391, 0.927) VoxelOrigin.Center =
    [(0, -1, 0), (1, -1, 0), (1, -1, 1), (1, 0, 1)] := by
  norm_num [WalkVoxels.list, iterRun, WalkVoxels.next, WalkVoxels.new, WalkVoxels.compare,
    VoxelOrigin.round, rustRound, abs_of_nonneg, abs_of_nonpos]

/-- An axis of the voxel walk, or `none` for a step that moves no axis. -/
inductive Axis where
  | x : Axis
  | y : Axis
  | z : Axis

/-- Apply to `s` the per-axis state update a `WalkVoxels` step performs for
the chosen axis: move the voxel by the axis sign and add the axis delta
error; `none` leaves the state unchanged. -/
def WalkVoxels.advance (s : WalkVoxels) : Option Axis → WalkVoxels
  | some Axis.x => { s with voxel := (s.voxel.1 + s.sign_x, s.voxel.2.1, s.voxel.2.2),
                            err_x := s.err_x + s.d_err_x }
  | some Axis.y => { s with voxel := (s.voxel.1, s.voxel.2.1 + s.sign_y, s.voxel.2.2),
                            err_y := s.err_y + s.d_err_y }
  | some Axis.z => { s with voxel := (s.voxel.1, s.voxel.2.1, s.voxel.2.2 + s.sign_z),
                            err_z := s.err_z + s.d_err_z }
  | none => s

/-- Specification-level axis choice (amended rule): among the eligible axes
(per-axis sign nonzero), the axis of smallest error magnitude, with ties
broken by the priority z over y over x (each `if` takes an axis exactly
when it is eligible and its error is `≤` every later-checked eligible
axis's error); `none` when no axis is eligible. -/
def lastMinEligibleAxis (s : WalkVoxels) : Option Axis :=
  if s.sign_z ≠ 0 ∧ (s.sign_y = 0 ∨ |s.err_z| ≤ |s.err_y|) ∧
      (s.sign_x = 0 ∨ |s.err_z| ≤ |s.err_x|) then
    some Axis.z
  else if s.sign_y ≠ 0 ∧ (s.sign_x = 0 ∨ |s.err_y| ≤ |s.err_x|) then
    some Axis.y
  else if s.sign_x ≠ 0 then
    some Axis.x
  else
    none

/-- C3 (counterexample): walking from `(0,0,0)` to `(1,1,0)` with `Center`
origin, the x and y axes are both eligible (`sign = 1`) and their error
magnitudes are equal (both smallest among eligible axes), yet the first
step advances the y axis — the emitted state has voxel `(0,1,0)`, not
`(1,0,0)` — so ties are not broken in favour of x over y over z. -/
theorem walkVoxels_tiebreak_cex :
    (WalkVoxels.new (0, 0, 0) (1, 1, 0) VoxelOrigin.Center).sign_x = 1 ∧
    (WalkVoxels.new (0, 0, 0) (1, 1, 0) VoxelOrigin.Center).sign_y = 1 ∧
    (WalkVoxels.new (0, 0, 0) (1, 1, 0) VoxelOrigin.Center).sign_z = 0 ∧
    |(WalkVoxels.new (0, 0, 0) (1, 1, 0) VoxelOrigin.Center).err_x| =
      |(WalkVoxels.new (0, 0, 0) (1, 1, 0) VoxelOrigin.Center).err_y| ∧
    (WalkVoxels.next (WalkVoxels.new (0, 0, 0) (1, 1, 0) VoxelOrigin.Center)).map
      (fun p => p.2.voxel) = some ((0 : ℤ), (1 : ℤ), (0 : ℤ)) := by
  norm_num [WalkVoxels.new, WalkVoxels.next, WalkVoxels.compare, VoxelOrigin.round, rustRound]

/-- C3 (amended): at every step taken while `count` is nonnegative,
`WalkVoxels` emits the current voxel and advances exactly the eligible axis
(per-axis sign nonzero) whose scaled error magnitude is smallest among the
eligible axes, but ties are broken by the priority z over y over x — the
reverse of the claimed x-over-y-over-z priority — and when no axis is
eligible the voxel is unchanged. -/
theorem walkVoxels_advances_last_min_axis (s : WalkVoxels) (h : 0 ≤ s.count) :
    WalkVoxels.next s =
      some (s.voxel,
        WalkVoxels.advance { s with count := s.count - 1 } (lastMinEligibleAxis s)) := by
  rw [WalkVoxels.next, if_pos h]
  dsimp only
  by_cases hA : s.sign_x ≠ 0 ∧ (s.sign_y = 0 ∨ |s.err_x| < |s.err_y|) ∧
      (s.sign_z = 0 ∨ |s.err_x| < |s.err_z|)
  · obtain ⟨hx0, hxy, hxz⟩ := hA
    have hCz : ¬(s.sign_z ≠ 0 ∧ (s.sign_y = 0 ∨ |s.err_z| ≤ |s.err_y|) ∧
        (s.sign_x = 0 ∨ |s.err_z| ≤ |s.err_x|)) := by
      rintro ⟨hz0, -, hzx⟩
      rcases hzx with hx | hzx
      · exact hx0 hx
      · rcases hxz with hz | hxz
        · exact hz0 hz
        · linarith
    have hCy : ¬(s.sign_y ≠ 0 ∧ (s.sign_x = 0 ∨ |s.err_y| ≤ |s.err_x|)) := by
      rintro ⟨hy0, hyx⟩
      rcases hyx with hx | hyx
      · exact hx0 hx
      · rcases hxy with hy | hxy
        · exact hy0 hy
        · linarith
    rw [if_pos ⟨hx0, hxy, hxz⟩, lastMinEligibleAxis, if_neg hCz, if_neg hCy, if_pos hx0]
    rfl
  · by_cases hB : s.sign_y ≠ 0 ∧ (s.sign_z = 0 ∨ |s.err_y| < |s.err_z|)
    · obtain ⟨hy0, hyz⟩ := hB
      have hCz : ¬(s.sign_z ≠ 0 ∧ (s.sign_y = 0 ∨ |s.err_z| ≤ |s.err_y|) ∧
          (s.sign_x = 0 ∨ |s.err_z| ≤ |s.err_x|)) := by
        rintro ⟨hz0, hzy, -⟩
        rcases hyz with hz | hyz
        · exact hz0 hz
        · rcases hzy with hy | hzy
          · exact hy0 hy
          · linarith
      have hCy : s.sign_y ≠ 0 ∧ (s.sign_x = 0 ∨ |s.err_y| ≤ |s.err_x|) := by
        refine ⟨hy0, ?_⟩
        by_cases hx0 : s.sign_x = 0
        · exact Or.inl hx0
        · right
          rcases not_and_or.mp hA with hc | hc
          · push_neg at hc
            exact absurd hc hx0
          · rcases not_and_or.mp hc with hc1 | hc2
            · push_neg at hc1
              linarith [hc1.2]
            · push_neg at hc2
              rcases hyz with hz | hyz
              · exact absurd hz hc2.1
              · linarith [hc2.2]
      rw [if_neg hA, if_pos ⟨hy0, hyz⟩, lastMinEligibleAxis, if_neg hCz, if_pos hCy]
      rfl
    · by_cases hz0 : s.sign_z = 0
      · have hy0 : s.sign_y = 0 := by
          by_contra hy0
          exact hB ⟨hy0, Or.inl hz0⟩
        have hx0 : s.sign_x = 0 := by
          by_contra hx0
          exact hA ⟨hx0, Or.inl hy0, Or.inl hz0⟩
        rw [if_neg hA, if_neg hB, if_neg (fun hne => hne hz0), lastMinEligibleAxis,
          if_neg (fun hc => hc.1 hz0), if_neg (fun hc => hc.1 hy0),
          if_neg (fun hne => hne hx0)]
        rfl
      · have hCz : s.sign_z ≠ 0 ∧ (s.sign_y = 0 ∨ |s.err_z| ≤ |s.err_y|) ∧
            (s.sign_x = 0 ∨ |s.err_z| ≤ |s.err_x|) := by
          refine ⟨hz0, ?_, ?_⟩
          · by_cases hy0 : s.sign_y = 0
            · exact Or.inl hy0
            · right
              rcases not_and_or.mp hB with hc | hc
              · push_neg at hc
                exact absurd hc hy0
              · push_neg at hc
                exact hc.2
          · by_cases hx0 : s.sign_x = 0
            · exact Or.inl hx0
            · right
              rcases not_and_or.mp hA with hc | hc
              · push_neg at hc
                exact absurd hc hx0
              · rcases not_and_or.mp hc with hc1 | hc2
                · push_neg at hc1
                  rcases not_and_or.mp hB with hd | hd
                  · push_neg at hd
                    exact absurd hd hc1.1
                  · push_neg at hd
                    linarith [hc1.2, hd.2]
                · push_neg at hc2
                  exact hc2.2
        rw [if_neg hA, if_neg hB, if_pos hz0, lastMinEligibleAxis, if_pos hCz]
        rfl

/-- Witness for the amended C3 theorem at the concrete state
`WalkVoxels.new (0,0,0) (1,1,0) Center`, whose count `2` is nonnegative. -/
theorem walkVoxels_advances_last_min_axis_witness :
    0 ≤ (WalkVoxels.new (0, 0, 0) (1, 1, 0) VoxelOrigin.Center).count ∧
    WalkVoxels.next (WalkVoxels.new (0, 0, 0) (1, 1, 0) VoxelOrigin.Center) =
      some ((WalkVoxels.new (0, 0, 0) (1, 1, 0) VoxelOrigin.Center).voxel,
        WalkVoxels.advance
          { WalkVoxels.new (0, 0, 0) (1, 1, 0) VoxelOrigin.Center with
            count := (WalkVoxels.new (0, 0, 0) (1, 1, 0) VoxelOrigin.Center).count - 1 }
          (lastMinEligibleAxis (WalkVoxels.new (0, 0, 0) (1, 1, 0) VoxelOrigin.Center))) :=
  ⟨by norm_num [WalkVoxels.new, WalkVoxels.compare, VoxelOrigin.round, rustRound],
   walkVoxels_advances_last_min_axis _
     (by norm_num [WalkVoxels.new, WalkVoxels.compare, VoxelOrigin.round, rustRound])⟩

/-! ### Termination machinery for claim C2 -/

/-- An iterator exhausts from every state as soon as some natural-valued
measure strictly decreases across every successful `next`. -/
theorem exhausts_of_measure {σ α : Type} (next : σ → Option (α × σ)) (f : σ → ℕ)
    (hf : ∀ s a s', next s = some (a, s') → f s' < f s) : ∀ s, Exhausts next s := by
  have main : ∀ n s, f s ≤ n → Exhausts next s := by
    intro n
    induction n with
    | zero =>
      intro s hs
      cases hnext : next s with
      | none => exact exhausts_of_next_none next s hnext
      | some p =>
        have := hf s p.1 p.2 (by rw [hnext])
        omega
    | succ n ih =>
      intro s hs
      cases hnext : next s with
      | none => exact exhausts_of_next_none next s hnext
      | some p =>
        have hlt := hf s p.1 p.2 (by rw [hnext])
        exact exhausts_of_next_some next s p.2 p.1 (by rw [hnext]) (ih p.2 (by omega))
  intro s
  exact main (f s) s le_rfl

/-- Termination from a preserved invariant and a lexicographic pair of
natural-valued measures: across every successful `next` from an invariant
state, either `f` strictly decreases, or `f` is unchanged and `g` strictly
decreases. -/
theorem exhausts_of_invariant_measure {σ α : Type} (next : σ → Option (α × σ))
    (P : σ → Prop) (f g : σ → ℕ)
    (hP : ∀ s a s', P s → next s = some (a, s') → P s')
    (hfg : ∀ s a s', P s → next s = some (a, s') →
      f s' < f s ∨ (f s' = f s ∧ g s' < g s)) :
    ∀ s, P s → Exhausts next s := by
  have main : ∀ k m s, P s → f s ≤ k → g s ≤ m → Exhausts next s := by
    intro k
    induction k with
    | zero =>
      intro m
      induction m with
      | zero =>
        intro s hP0 hf0 hg0
        cases hnext : next s with
        | none => exact exhausts_of_next_none next s hnext
        | some p =>
          rcases hfg s p.1 p.2 hP0 (by rw [hnext]) with h | ⟨h1, h2⟩ <;> omega
      | succ m ihm =>
        intro s hP0 hf0 hg0
        cases hnext : next s with
        | none => exact exhausts_of_next_none next s hnext
        | some p =>
          rcases hfg s p.1 p.2 hP0 (by rw [hnext]) with h | ⟨h1, h2⟩
          · omega
          · exact exhausts_of_next_some next s p.2 p.1 (by rw [hnext])
              (ihm p.2 (hP s p.1 p.2 hP0 (by rw [hnext])) (by omega) (by omega))
    | succ k ihk =>
      intro m
      induction m with
      | zero =>
        intro s hP0 hf0 hg0
        cases hnext : next s with
        | none => exact exhausts_of_next_none next s hnext
        | some p =>
          rcases hfg s p.1 p.2 hP0 (by rw [hnext]) with h | ⟨h1, h2⟩
          · exact exhausts_of_next_some next s p.2 p.1 (by rw [hnext])
              (ihk (g p.2) p.2 (hP s p.1 p.2 hP0 (by rw [hnext])) (by omega) le_rfl)
          · omega
      | succ m ihm =>
        intro s hP0 hf0 hg0
        cases hnext : next s with
        | none => exact exhausts_of_next_none next s hnext
        | some p =>
          rcases hfg s p.1 p.2 hP0 (by rw [hnext]) with h | ⟨h1, h2⟩
          · exact exhausts_of_next_some next s p.2 p.1 (by rw [hnext])
              (ihk (g p.2) p.2 (hP s p.1 p.2 hP0 (by rw [hnext])) (by omega) le_rfl)
          · exact exhausts_of_next_some next s p.2 p.1 (by rw [hnext])
              (ihm p.2 (hP s p.1 p.2 hP0 (by rw [hnext])) (by omega) (by omega))
  intro s hP0
  exact main (f s) (g s) s hP0 le_rfl le_rfl

/-- Non-termination from a preserved invariant under which `next` always
succeeds. -/
theorem not_exhausts_of_invariant {σ α : Type} (next : σ → Option (α × σ))
    (I : σ → Prop) (hI : ∀ s, I s → ∃ a s', next s = some (a, s') ∧ I s')
    (s : σ) (hs : I s) : ¬ Exhausts next s := by
  rintro ⟨n, hn⟩
  induction n generalizing s with
  | zero => simp [iterStep] at hn
  | succ n ih =>
    obtain ⟨a, s', hnext, hI'⟩ := hI s hs
    rw [iterStep_succ_of_next next n s s' a hnext] at hn
    exact ih s' hI' hn

theorem walkGrid_exhausts (s : WalkGrid) : Exhausts WalkGrid.next s := by
  refine exhausts_of_measure WalkGrid.next
    (fun s => s.nx + s.ny + 2 - (s.ix + s.iy)) ?_ s
  intro s a s' h
  rw [WalkGrid.next] at h
  split_ifs at h with hg hr
  · cases h
    dsimp only
    omega
  · cases h
    dsimp only
    omega

theorem supercover_exhausts (s : Supercover) : Exhausts Supercover.next s := by
  refine exhausts_of_measure Supercover.next
    (fun s => s.nx + s.ny + 2 - (s.ix + s.iy)) ?_ s
  intro s a s' h
  rw [Supercover.next] at h
  split_ifs at h with hg
  rcases hc : ratioCmp s.ix s.nx s.iy s.ny with _ | _ | _ <;>
    rw [hc] at h <;> cases h <;> dsimp only <;> omega

theorem bresenham_exhausts (s : Bresenham) : Exhausts Bresenham.next s := by
  refine exhausts_of_measure Bresenham.next
    (fun s => (s.end_x + 1 - s.point.1).toNat) ?_ s
  intro s a s' h
  rw [Bresenham.next] at h
  split_ifs at h with hg
  cases h
  dsimp only [Bresenham.step]
  omega

theorem bresenham3d_exhausts (s : Bresenham3d) : Exhausts Bresenham3d.next s := by
  refine exhausts_of_measure Bresenham3d.next (fun s => (s.count + 1).toNat) ?_ s
  intro s a s' h
  rw [Bresenham3d.next] at h
  split_ifs at h with hg
  cases h
  dsimp only [Bresenham3d.step]
  omega

theorem walkVoxels_exhausts (s : WalkVoxels) : Exhausts WalkVoxels.next s := by
  refine exhausts_of_measure WalkVoxels.next (fun s => (s.count + 1).toNat) ?_ s
  intro s a s' h
  rw [WalkVoxels.next] at h
  dsimp only at h
  split_ifs at h with hg h1 h2 h3 <;> cases h <;> dsimp only <;> omega

theorem midpoint_exhausts (s : Midpoint) : Exhausts Midpoint.next s := by
  refine exhausts_of_measure Midpoint.next
    (fun s => 2 * (s.end_x + 1 - s.x).toNat + (if s.return_first then 1 else 0)) ?_ s
  intro s a s' h
  rw [Midpoint.next] at h
  dsimp only at h
  split_ifs at h with h1 h2 h3 h4 <;> cases h <;> (try simp_all) <;> omega

theorem xiaolinWu_exhausts (s : XiaolinWu) : Exhausts XiaolinWu.next s := by
  refine exhausts_of_measure XiaolinWu.next
    (fun s => 2 * (s.end_x + 1 - s.x).toNat + (if s.lower then 0 else 1)) ?_ s
  intro s a s' h
  rw [XiaolinWu.next] at h
  dsimp only at h
  split_ifs at h with h1 h2 h3 <;> cases h <;> (try simp_all) <;> omega

/-! ### BresenhamCircle (src/src/bresenham_circle.rs) -/

/-- State of the Rust `BresenhamCircle` iterator; the `u8` quadrant is
modelled as a `ℕ`. -/
structure BresenhamCircle where
  x : ℤ
  y : ℤ
  center_x : ℤ
  center_y : ℤ
  radius : ℤ
  error : ℤ
  quadrant : ℕ

/-- Rust `BresenhamCircle::new`. -/
def BresenhamCircle.new (center_x center_y radius : ℤ) : BresenhamCircle :=
  { center_x := center_x
    center_y := center_y
    radius := radius
    x := -radius
    y := 0
    error := 2 - 2 * radius
    quadrant := 1 }

/-- Rust `<BresenhamCircle as Iterator>::next`.  The `_ => unreachable!()`
arm of the quadrant match is modelled by the junk point `(0, 0)`; the
quadrant always stays in `1..=4`.  In the source each `if` reads the
fields just written by the previous one, so the updates are chained
through shadowed states. -/
def BresenhamCircle.next (s : BresenhamCircle) : Option ((ℤ × ℤ) × BresenhamCircle) :=
  if s.x < 0 then
    let point :=
      match s.quadrant with
      | 1 => (s.center_x - s.x, s.center_y + s.y)
      | 2 => (s.center_x - s.y, s.center_y - s.x)
      | 3 => (s.center_x + s.x, s.center_y - s.y)
      | 4 => (s.center_x + s.y, s.center_y + s.x)
      | _ => (0, 0)
    let s :=
      if s.quadrant = 4 then
        let s := { s with radius := s.error }
        let s :=
          if s.radius ≤ s.y then
            { s with y := s.y + 1, error := s.error + (s.y + 1) * 2 + 1 }
          else s
        if s.radius > s.x ∨ s.error > s.y then
          { s with x := s.x + 1, error := s.error + (s.x + 1) * 2 + 1 }
        else s
      else s
    some (point, { s with quadrant := s.quadrant % 4 + 1 })
  else
    none

example : iterRun BresenhamCircle.next 6 (BresenhamCircle.new 0 0 1) =
    [(1, 0), (0, 1), (-1, 0), (0, -1)] := by decide

example : iterRun BresenhamCircle.next 18 (BresenhamCircle.new 0 0 3) =
    [(3, 0), (0, 3), (-3, 0), (0, -3), (3, 1), (-1, 3), (-3, -1), (1, -3),
      (2, 2), (-2, 2), (-2, -2), (2, -2), (1, 3), (-3, 1), (-1, -3), (3, -1)] := by decide

/-- Invariant carrying the `BresenhamCircle` termination argument: the y
offset is nonnegative and the quadrant tag stays in `1..=4`. -/
def BresenhamCircle.Inv (s : BresenhamCircle) : Prop :=
  0 ≤ s.y ∧ 1 ≤ s.quadrant ∧ s.quadrant ≤ 4

theorem bresenhamCircle_exhausts (s : BresenhamCircle) (hs : BresenhamCircle.Inv s) :
    Exhausts BresenhamCircle.next s := by
  refine exhausts_of_invariant_measure BresenhamCircle.next BresenhamCircle.Inv
    (fun s => (-s.x).toNat)
    (fun s => (-s.error - s.y - 1).toNat * 4 + (4 - s.quadrant)) ?_ ?_ s hs
  · intro s a s' h hnext
    rw [BresenhamCircle.next] at hnext
    dsimp only at hnext
    split_ifs at hnext with hg hq hy hx hx <;> cases hnext <;>
      unfold BresenhamCircle.Inv at h ⊢ <;> dsimp only at * <;> omega
  · intro s a s' h hnext
    obtain ⟨hy0, hq1, hq4⟩ := h
    rw [BresenhamCircle.next] at hnext
    dsimp only at hnext
    split_ifs at hnext with hg hq hy hx hx <;> cases hnext <;> dsimp only at *
    · -- quadrant 4, y-if fired, x-if fired: x advances
      left
      omega
    · -- quadrant 4, y-if fired, x-if stalled
      right
      constructor
      · omega
      · -- the stall forces error ≤ -y - 2 before the step
        push_neg at hx
        omega
    · -- quadrant 4, y-if stalled, x-if fired
      left
      omega
    · -- quadrant 4, neither if fired: radius = error ≤ x contradicts y-if stall
      push_neg at hx hy
      omega
    · -- quadrant ≠ 4: only the quadrant advances
      right
      constructor
      · omega
      · omega

/-! ### BresenhamEllipse (src/src/bresenham_ellipse.rs) -/

/-- State of the Rust `BresenhamEllipse` iterator; the `u8` quadrant is
modelled as a `ℕ`. -/
structure BresenhamEllipse where
  x : ℤ
  y : ℤ
  center_x : ℤ
  center_y : ℤ
  radius_x : ℤ
  radius_y : ℤ
  delta_x : ℤ
  delta_y : ℤ
  error : ℤ
  quadrant : ℕ
  radius_x_squared_doubled : ℤ
  radius_y_squared_doubled : ℤ
  end_x : ℤ
  end_y : ℤ
  first_region : Bool

/-- Rust `BresenhamEllipse::new`. -/
def BresenhamEllipse.new (center_x center_y radius_x radius_y : ℤ) : BresenhamEllipse :=
  { center_x := center_x
    center_y := center_y
    radius_x := radius_x
    radius_y := radius_y
    x := radius_x
    y := 0
    delta_x := radius_y * radius_y * (1 - 2 * radius_x)
    delta_y := radius_x * radius_x
    error := 0
    radius_x_squared_doubled := 2 * radius_x * radius_x
    radius_y_squared_doubled := 2 * radius_y * radius_y
    end_x := 2 * radius_y * radius_y * radius_x
    end_y := 0
    quadrant := 1
    first_region := true }

/-- The quadrant-to-point mapping shared by both regions of
`BresenhamEllipse::next`; the `_ => unreachable!()` arm is modelled by the
junk point `(0, 0)`. -/
def BresenhamEllipse.point (s : BresenhamEllipse) : ℤ × ℤ :=
  match s.quadrant with
  | 1 => (s.center_x + s.x, s.center_y + s.y)
  | 2 => (s.center_x - s.x, s.center_y + s.y)
  | 3 => (s.center_x - s.x, s.center_y - s.y)
  | 4 => (s.center_x + s.x, s.center_y - s.y)
  | _ => (0, 0)

/-- Rust `<BresenhamEllipse as Iterator>::next`.  Sequential field
mutations are modelled by shadowed intermediate states; each mutation's
right-hand side reads exactly the fields the source reads at that point. -/
def BresenhamEllipse.next (s : BresenhamEllipse) : Option ((ℤ × ℤ) × BresenhamEllipse) :=
  if s.first_region ∧ s.end_y ≤ s.end_x then
    let point := s.point
    let s :=
      if s.quadrant = 4 then
        let s := { s with y := s.y + 1, end_y := s.end_y + s.radius_x_squared_doubled,
                          error := s.error + s.delta_y,
                          delta_y := s.delta_y + s.radius_x_squared_doubled }
        if s.error * 2 + s.delta_x > 0 then
          { s with x := s.x - 1, end_x := s.end_x - s.radius_y_squared_doubled,
                   error := s.error + s.delta_x,
                   delta_x := s.delta_x + s.radius_y_squared_doubled }
        else s
      else s
    some (point, { s with quadrant := s.quadrant % 4 + 1 })
  else if s.end_x ≤ s.end_y then
    let s :=
      if s.first_region then
        { s with first_region := false, x := 0, y := s.radius_y,
                 delta_x := s.radius_y * s.radius_y,
                 delta_y := s.radius_x * s.radius_x * (1 - 2 * s.radius_y),
                 error := 0, end_x := 0,
                 end_y := s.radius_x_squared_doubled * s.radius_y }
      else s
    let point := s.point
    let s :=
      if s.quadrant = 4 then
        let s := { s with x := s.x + 1, end_x := s.end_x + s.radius_y_squared_doubled,
                          error := s.error + s.delta_x,
                          delta_x := s.delta_x + s.radius_y_squared_doubled }
        if s.error * 2 + s.delta_y > 0 then
          { s with y := s.y - 1, end_y := s.end_y - s.radius_x_squared_doubled,
                   error := s.error + s.delta_y,
                   delta_y := s.delta_y + s.radius_x_squared_doubled }
        else s
      else s
    some (point, { s with quadrant := s.quadrant % 4 + 1 })
  else
    none

example : iterRun BresenhamEllipse.next 25 (BresenhamEllipse.new 5 5 2 3) =
    [(7, 5), (3, 5), (3, 5), (7, 5), (7, 6), (3, 6), (3, 4), (7, 4), (6, 7), (4, 7),
      (4, 3), (6, 3), (5, 8), (5, 8), (5, 2), (5, 2), (6, 8), (4, 8), (4, 2), (6, 2)] := by
  decide

/-- Invariant carrying the `BresenhamEllipse` termination argument for
radii that are not both zero: the squared-radius fields hold their defining
values, the quadrant stays in `1..=4`, and in the region whose driving
squared radius is zero the error bookkeeping forces the inner `if` (which
moves the region's end bound) to fire on every fourth step. -/
def BresenhamEllipse.Inv (s : BresenhamEllipse) : Prop :=
  1 ≤ s.quadrant ∧ s.quadrant ≤ 4 ∧
  s.radius_x_squared_doubled = 2 * s.radius_x * s.radius_x ∧
  s.radius_y_squared_doubled = 2 * s.radius_y * s.radius_y ∧
  (s.radius_x ≠ 0 ∨ s.radius_y ≠ 0) ∧
  (s.radius_x = 0 → s.first_region = true → s.delta_y = 0 ∧ 0 ≤ s.error ∧ 1 ≤ s.delta_x) ∧
  (s.radius_y = 0 → s.first_region = false → s.delta_x = 0 ∧ 0 ≤ s.error ∧ 1 ≤ s.delta_y)

/-- One nonzero radius squared is at least 1. -/
theorem sq_pos_of_ne_zero (r : ℤ) (h : r ≠ 0) : 1 ≤ r * r := by
  rcases lt_or_gt_of_ne h with h' | h' <;> nlinarith

theorem BresenhamEllipse.Inv_new (center_x center_y radius_x radius_y : ℤ)
    (h : radius_x ≠ 0 ∨ radius_y ≠ 0) :
    BresenhamEllipse.Inv (BresenhamEllipse.new center_x center_y radius_x radius_y) := by
  unfold BresenhamEllipse.Inv BresenhamEllipse.new
  dsimp only
  refine ⟨by norm_num, by norm_num, rfl, rfl, h, ?_, ?_⟩
  · intro hx _
    refine ⟨by rw [hx]; ring, le_refl 0, ?_⟩
    have hy : radius_y ≠ 0 := by tauto
    have h1 := sq_pos_of_ne_zero radius_y hy
    rw [hx]
    nlinarith [h1]
  · intro _ hfalse
    exact absurd hfalse (by simp)

theorem BresenhamEllipse.Inv_preserved (s : BresenhamEllipse) (a : ℤ × ℤ) (s' : BresenhamEllipse)
    (h : BresenhamEllipse.Inv s) (hnext : BresenhamEllipse.next s = some (a, s')) :
    BresenhamEllipse.Inv s' := by
  obtain ⟨h1, h2, h3, h4, h5, h6, h7⟩ := h
  have hxx : 0 ≤ s.radius_x * s.radius_x := mul_self_nonneg _
  have hyy : 0 ≤ s.radius_y * s.radius_y := mul_self_nonneg _
  have hrx2 : 0 ≤ s.radius_x_squared_doubled := by rw [h3]; linarith
  have hry2 : 0 ≤ s.radius_y_squared_doubled := by rw [h4]; linarith
  rw [BresenhamEllipse.next] at hnext
  dsimp only at hnext
  split_ifs at hnext with hg1 hq hi hg2 hfr hq2 hi2 hq3 hi3 <;> cases hnext <;>
    unfold BresenhamEllipse.Inv <;> dsimp only at *
  · -- region 1, quadrant 4, x-if fired
    refine ⟨by omega, by omega, h3, h4, h5, ?_, ?_⟩
    · intro hx hf
      obtain ⟨hdy, he, hdx⟩ := h6 hx hg1.1
      have hz : s.radius_x_squared_doubled = 0 := by rw [h3, hx]; ring
      refine ⟨by omega, by omega, by omega⟩
    · intro hy hf
      rw [hg1.1] at hf
      simp at hf
  · -- region 1, quadrant 4, x-if stalled
    refine ⟨by omega, by omega, h3, h4, h5, ?_, ?_⟩
    · intro hx hf
      obtain ⟨hdy, he, hdx⟩ := h6 hx hg1.1
      have hz : s.radius_x_squared_doubled = 0 := by rw [h3, hx]; ring
      refine ⟨by omega, by omega, by omega⟩
    · intro hy hf
      rw [hg1.1] at hf
      simp at hf
  · -- region 1, quadrant not 4
    refine ⟨by omega, by omega, h3, h4, h5, h6, ?_⟩
    intro hy hf
    rw [hg1.1] at hf
    simp at hf
  · -- transition to region 2, quadrant 4, y-if fired
    refine ⟨by omega, by omega, h3, h4, h5, ?_, ?_⟩
    · intro hx hf
      simp at hf
    · intro hy hf
      refine ⟨by rw [h4, hy]; ring, by nlinarith [hyy], ?_⟩
      have hx0 : s.radius_x ≠ 0 := by tauto
      have hp := sq_pos_of_ne_zero s.radius_x hx0
      rw [h3, hy]
      nlinarith [hp]
  · -- transition to region 2, quadrant 4, y-if stalled
    refine ⟨by omega, by omega, h3, h4, h5, ?_, ?_⟩
    · intro hx hf
      simp at hf
    · intro hy hf
      refine ⟨by rw [h4, hy]; ring, by nlinarith [hyy], ?_⟩
      have hx0 : s.radius_x ≠ 0 := by tauto
      have hp := sq_pos_of_ne_zero s.radius_x hx0
      rw [hy]
      nlinarith [hp]
  · -- transition to region 2, quadrant not 4
    refine ⟨by omega, by omega, h3, h4, h5, ?_, ?_⟩
    · intro hx hf
      simp at hf
    · intro hy hf
      refine ⟨by rw [hy]; ring, le_refl 0, ?_⟩
      have hx0 : s.radius_x ≠ 0 := by tauto
      have hp := sq_pos_of_ne_zero s.radius_x hx0
      rw [hy]
      nlinarith [hp]
  · -- region 2 steady, quadrant 4, y-if fired
    have hf0 : s.first_region = false := by simpa using hfr
    refine ⟨by omega, by omega, h3, h4, h5, ?_, ?_⟩
    · intro hx hf
      rw [hf0] at hf
      simp at hf
    · intro hy hf
      obtain ⟨hdx, he, hdy⟩ := h7 hy hf0
      have hz : s.radius_y_squared_doubled = 0 := by rw [h4, hy]; ring
      refine ⟨by omega, by omega, by omega⟩
  · -- region 2 steady, quadrant 4, y-if stalled
    have hf0 : s.first_region = false := by simpa using hfr
    refine ⟨by omega, by omega, h3, h4, h5, ?_, ?_⟩
    · intro hx hf
      rw [hf0] at hf
      simp at hf
    · intro hy hf
      obtain ⟨hdx, he, hdy⟩ := h7 hy hf0
      have hz : s.radius_y_squared_doubled = 0 := by rw [h4, hy]; ring
      refine ⟨by omega, by omega, by omega⟩
  · -- region 2 steady, quadrant not 4
    have hf0 : s.first_region = false := by simpa using hfr
    refine ⟨by omega, by omega, h3, h4, h5, ?_, h7⟩
    intro hx hf
    rw [hf0] at hf
    simp at hf

theorem BresenhamEllipse.step_decrease (s : BresenhamEllipse) (a : ℤ × ℤ)
    (s' : BresenhamEllipse) (h : BresenhamEllipse.Inv s)
    (hnext : BresenhamEllipse.next s = some (a, s')) :
    (if s'.first_region then 1 else 0) < (if s.first_region then 1 else 0) ∨
      ((if s'.first_region then 1 else 0) = (if s.first_region then 1 else 0) ∧
        (if s'.first_region then
            (if s'.end_y ≤ s'.end_x then (s'.end_x - s'.end_y).toNat * 4 + 8 - s'.quadrant else 0)
          else
            (if s'.end_x ≤ s'.end_y then (s'.end_y - s'.end_x).toNat * 4 + 8 - s'.quadrant
              else 0)) <
          (if s.first_region then
            (if s.end_y ≤ s.end_x then (s.end_x - s.end_y).toNat * 4 + 8 - s.quadrant else 0)
          else
            (if s.end_x ≤ s.end_y then (s.end_y - s.end_x).toNat * 4 + 8 - s.quadrant
              else 0))) := by
  obtain ⟨h1, h2, h3, h4, h5, h6, h7⟩ := h
  have hxx : 0 ≤ s.radius_x * s.radius_x := mul_self_nonneg _
  have hyy : 0 ≤ s.radius_y * s.radius_y := mul_self_nonneg _
  have hrx2 : 0 ≤ s.radius_x_squared_doubled := by rw [h3]; linarith
  have hry2 : 0 ≤ s.radius_y_squared_doubled := by rw [h4]; linarith
  have hbigx : s.radius_x ≠ 0 → 2 ≤ s.radius_x_squared_doubled := by
    intro hx
    have := sq_pos_of_ne_zero s.radius_x hx
    rw [h3]
    linarith
  have hbigy : s.radius_y ≠ 0 → 2 ≤ s.radius_y_squared_doubled := by
    intro hy
    have := sq_pos_of_ne_zero s.radius_y hy
    rw [h4]
    linarith
  rw [BresenhamEllipse.next] at hnext
  dsimp only at hnext
  split_ifs at hnext with hg1 hq hi hg2 hfr hq2 hi2 hq3 hi3 <;> cases hnext <;> dsimp only at *
  · -- region 1, quadrant 4, x-if fired: both end bounds move together
    right
    have hsum : 2 ≤ s.radius_x_squared_doubled + s.radius_y_squared_doubled := by
      rcases h5 with hx | hy
      · linarith [hbigx hx]
      · linarith [hbigy hy]
    simp only [hg1.1, if_true]
    refine ⟨trivial, ?_⟩
    have hle := hg1.2
    split_ifs <;> omega
  · -- region 1, quadrant 4, x-if stalled: the x radius cannot be zero
    right
    have hx0 : s.radius_x ≠ 0 := by
      intro hx
      obtain ⟨hdy, he, hdx⟩ := h6 hx hg1.1
      push_neg at hi
      omega
    have hbx := hbigx hx0
    simp only [hg1.1, if_true]
    refine ⟨trivial, ?_⟩
    have hle := hg1.2
    split_ifs <;> omega
  · -- region 1, quadrant not 4: the quadrant counter advances
    right
    simp only [hg1.1, if_true]
    refine ⟨trivial, ?_⟩
    have hle := hg1.2
    split_ifs <;> omega
  · -- transition step: leaving the first region
    left
    simp [hfr]
  · left
    simp [hfr]
  · left
    simp [hfr]
  · -- region 2 steady, quadrant 4, y-if fired
    right
    have hf0 : s.first_region = false := by simpa using hfr
    have hsum : 2 ≤ s.radius_x_squared_doubled + s.radius_y_squared_doubled := by
      rcases h5 with hx | hy
      · linarith [hbigx hx]
      · linarith [hbigy hy]
    simp only [hf0, Bool.false_eq_true, if_false]
    refine ⟨trivial, ?_⟩
    split_ifs <;> omega
  · -- region 2 steady, quadrant 4, y-if stalled: the y radius cannot be zero
    right
    have hf0 : s.first_region = false := by simpa using hfr
    have hy0 : s.radius_y ≠ 0 := by
      intro hy
      obtain ⟨hdx, he, hdy⟩ := h7 hy hf0
      push_neg at hi3
      omega
    have hby := hbigy hy0
    simp only [hf0, Bool.false_eq_true, if_false]
    refine ⟨trivial, ?_⟩
    split_ifs <;> omega
  · -- region 2 steady, quadrant not 4
    right
    have hf0 : s.first_region = false := by simpa using hfr
    simp only [hf0, Bool.false_eq_true, if_false]
    refine ⟨trivial, ?_⟩
    split_ifs <;> omega

theorem bresenhamEllipse_exhausts (s : BresenhamEllipse) (hs : BresenhamEllipse.Inv s) :
    Exhausts BresenhamEllipse.next s := by
  refine exhausts_of_invariant_measure BresenhamEllipse.next BresenhamEllipse.Inv
    (fun s => if s.first_region then 1 else 0)
    (fun s => if s.first_region then
        (if s.end_y ≤ s.end_x then (s.end_x - s.end_y).toNat * 4 + 8 - s.quadrant else 0)
      else
        (if s.end_x ≤ s.end_y then (s.end_y - s.end_x).toNat * 4 + 8 - s.quadrant else 0))
    (fun s a s' h hn => BresenhamEllipse.Inv_preserved s a s' h hn)
    (fun s a s' h hn => BresenhamEllipse.step_decrease s a s' h hn) s hs

/-- The frozen configuration reached by `BresenhamEllipse::new` when both
radii are zero: the first-region guard compares two bounds that never move,
so `next` succeeds forever. -/
def BresenhamEllipse.Frozen (s : BresenhamEllipse) : Prop :=
  s.first_region = true ∧ s.end_x = 0 ∧ s.end_y = 0 ∧ s.delta_x = 0 ∧
  s.delta_y = 0 ∧ s.error = 0 ∧ s.radius_x_squared_doubled = 0 ∧
  s.radius_y_squared_doubled = 0

theorem BresenhamEllipse.frozen_not_exhausts (s : BresenhamEllipse)
    (h : BresenhamEllipse.Frozen s) : ¬ Exhausts BresenhamEllipse.next s := by
  refine not_exhausts_of_invariant BresenhamEllipse.next BresenhamEllipse.Frozen ?_ s h
  intro s hs
  obtain ⟨h1, h2, h3, h4, h5, h6, h7, h8⟩ := hs
  rw [BresenhamEllipse.next]
  dsimp only
  rw [if_pos ⟨h1, le_of_eq (h3.trans h2.symm)⟩]
  by_cases hq : s.quadrant = 4
  · rw [if_pos hq, if_neg (by rw [h6, h5, h4]; norm_num)]
    refine ⟨_, _, rfl, ?_⟩
    unfold BresenhamEllipse.Frozen
    dsimp only
    exact ⟨h1, h2, by omega, h4, by omega, by omega, h7, h8⟩
  · rw [if_neg hq]
    refine ⟨_, _, rfl, ?_⟩
    exact ⟨h1, h2, h3, h4, h5, h6, h7, h8⟩

/-! ### Steps (src/src/steps.rs) -/

/-- State of the Rust `Steps` adapter over an inner iterator with state type
`σ` and item type `T`. -/
structure Steps (T : Type) (σ : Type) where
  iterator : σ
  prev : Option T

/-- Rust `Steps::new`: pull one item from the inner iterator and remember it
as `prev` (the inner state advances by that call). -/
def Steps.new {T σ : Type} (next : σ → Option (T × σ)) (iterator : σ) : Steps T σ :=
  match next iterator with
  | none => { iterator := iterator, prev := none }
  | some (a, it) => { iterator := it, prev := some a }

/-- Rust `<Steps as Iterator>::next`:
`self.iterator.next().and_then(|next| self.prev.map(|prev| ...))`.
When the inner call succeeds but `prev` is `none`, the source advances the
inner iterator and returns `None`; since `prev` can never become `some`
again, every later call also returns `None`, so dropping that inner
advance (as done here, where `next` returns no successor state on `none`)
is observationally equal. -/
def Steps.next {T σ : Type} (next : σ → Option (T × σ)) (s : Steps T σ) :
    Option ((T × T) × Steps T σ) :=
  match next s.iterator with
  | none => none
  | some (n, it) =>
    match s.prev with
    | none => none
    | some p => some ((p, n), { iterator := it, prev := some n })

example : iterRun (Steps.next WalkGrid.next) 8
      (Steps.new WalkGrid.next (WalkGrid.new (0, 0) (2, 2))) =
    [((0, 0), (0, 1)), ((0, 1), (1, 1)), ((1, 1), (1, 2)), ((1, 2), (2, 2))] := by decide

theorem Steps.iterStep_none {T σ : Type} (next : σ → Option (T × σ)) :
    ∀ (n : ℕ) (s : Steps T σ), iterStep next n s.iterator = none →
      iterStep (Steps.next next) n s = none := by
  intro n
  induction n with
  | zero =>
    intro s hs
    simp [iterStep] at hs
  | succ n ih =>
    intro s hs
    cases hnext : next s.iterator with
    | none =>
      have hstop : Steps.next next s = none := by
        rw [Steps.next, hnext]
      simp [iterStep, hstop]
    | some p =>
      rw [iterStep_succ_of_next next n s.iterator p.2 p.1 (by rw [hnext])] at hs
      cases hprev : s.prev with
      | none =>
        have hstop : Steps.next next s = none := by
          rw [Steps.next, hnext, hprev]
        simp [iterStep, hstop]
      | some q =>
        have hstep : Steps.next next s =
            some ((q, p.1), { iterator := p.2, prev := some p.1 }) := by
          rw [Steps.next, hnext, hprev]
        rw [iterStep_succ_of_next (Steps.next next) n s _ _ hstep]
        exact ih { iterator := p.2, prev := some p.1 } hs

/-- The `Steps` adapter exhausts as soon as its inner iterator state
exhausts. -/
theorem steps_exhausts {T σ : Type} (next : σ → Option (T × σ)) (s : Steps T σ)
    (h : Exhausts next s.iterator) : Exhausts (Steps.next next) s := by
  obtain ⟨n, hn⟩ := h
  exact ⟨n, Steps.iterStep_none next n s hn⟩

/-- C2 (counterexample): `BresenhamEllipse::new(0, 0, 0, 0)` never returns
`None`.  With both radii zero, `end_x`, `end_y` and all deltas are zero and
stay zero, so the first-region guard `end_x >= end_y` holds on every call
and the iteration is infinite. -/
theorem bresenhamEllipse_zero_radii_not_exhausts :
    ¬ Exhausts BresenhamEllipse.next (BresenhamEllipse.new 0 0 0 0) :=
  BresenhamEllipse.frozen_not_exhausts _
    (by norm_num [BresenhamEllipse.new, BresenhamEllipse.Frozen])

/-- C2 (amended): every iterator of the crate reaches `None` after finitely
many calls to `next` for every input — WalkGrid, Supercover, Bresenham,
Bresenham3d, Midpoint, XiaolinWu, WalkVoxels and BresenhamCircle
unconditionally, BresenhamEllipse for all radii except both zero (with
`radius_x = radius_y = 0` the iteration is infinite), and the Steps
adapter whenever its inner iterator state exhausts. -/
theorem all_iterators_exhaust :
    (∀ start finish : ℤ × ℤ, Exhausts WalkGrid.next (WalkGrid.new start finish)) ∧
    (∀ start finish : ℤ × ℤ, Exhausts Supercover.next (Supercover.new start finish)) ∧
    (∀ start finish : ℤ × ℤ, Exhausts Bresenham.next (Bresenham.new start finish)) ∧
    (∀ start finish : ℤ × ℤ × ℤ, Exhausts Bresenham3d.next (Bresenham3d.new start finish)) ∧
    (∀ (start finish : ℚ × ℚ) (orth : Bool),
      Exhausts Midpoint.next (Midpoint.new start finish orth)) ∧
    (∀ start finish : ℚ × ℚ, Exhausts XiaolinWu.next (XiaolinWu.new start finish)) ∧
    (∀ (start finish : ℚ × ℚ × ℚ) (origin : VoxelOrigin),
      Exhausts WalkVoxels.next (WalkVoxels.new start finish origin)) ∧
    (∀ x y r : ℤ, Exhausts BresenhamCircle.next (BresenhamCircle.new x y r)) ∧
    (∀ x y rx ry : ℤ, rx ≠ 0 ∨ ry ≠ 0 →
      Exhausts BresenhamEllipse.next (BresenhamEllipse.new x y rx ry)) ∧
    (∀ (T σ : Type) (inner : σ → Option (T × σ)) (s : Steps T σ),
      Exhausts inner s.iterator → Exhausts (Steps.next inner) s) := by
  refine ⟨fun a b => walkGrid_exhausts _, fun a b => supercover_exhausts _,
    fun a b => bresenham_exhausts _, fun a b => bresenham3d_exhausts _,
    fun a b o => midpoint_exhausts _, fun a b => xiaolinWu_exhausts _,
    fun a b o => walkVoxels_exhausts _,
    fun x y r => bresenhamCircle_exhausts _
      ⟨le_refl 0, le_refl 1, by norm_num [BresenhamCircle.new]⟩,
    fun x y rx ry h => bresenhamEllipse_exhausts _ (BresenhamEllipse.Inv_new x y rx ry h),
    fun T σ inner s h => steps_exhausts inner s h⟩

/-- Witness for the amended C2 theorem: the guarded parts apply at the
concrete ellipse `(5, 5, 2, 3)` (radii not both zero) and at a `Steps`
adapter over the concrete walk `WalkGrid (0,0) → (2,2)`, whose inner state
exhausts within ten calls. -/
theorem all_iterators_exhaust_witness :
    Exhausts BresenhamEllipse.next (BresenhamEllipse.new 5 5 2 3) ∧
    Exhausts (Steps.next WalkGrid.next)
      (Steps.new WalkGrid.next (WalkGrid.new (0, 0) (2, 2))) :=
  ⟨all_iterators_exhaust.2.2.2.2.2.2.2.2.1 5 5 2 3 (Or.inl (by decide)),
   all_iterators_exhaust.2.2.2.2.2.2.2.2.2 (ℤ × ℤ) WalkGrid WalkGrid.next
     (Steps.new WalkGrid.next (WalkGrid.new (0, 0) (2, 2))) ⟨10, rfl⟩⟩

end LineDrawing
